import Mathlib

/-!
Shallow embedding, in Lean 4, of the A-Tree boolean-expression matching
engine (Rust sources: `predicates.rs`, `ast.rs`, `atree.rs`,
`evaluation.rs`, `events.rs`, `strings.rs`).

Modelling conventions, used consistently below:

* Rust `u64` expression ids are `Nat` reduced `% 2 ^ 64` at every wrapping
  operation; `i64` payloads are `Int` (no arithmetic is performed on them,
  only comparisons); `rust_decimal::Decimal` (a fixed-point decimal that
  compares and hashes by numeric value) is `Rat`.
* A Rust panic (an `unreachable!`, a slab/`Vec` index out of bounds, or an
  out-of-range bit-set access) is represented by `Option.none` in the
  result type of the function that would panic; `some` is normal return.
* `std::hash::DefaultHasher` (SipHash) is opaque; it is modelled by an
  explicit injective encoding of canonical predicates into `Nat`
  (`Predicate.idHash`).  Nothing proved here depends on particular hash
  values, only on equal predicates hashing equally, which the encoding
  guarantees just as the real hasher does.
* The `slab::Slab` arena is an association list together with a counter
  that hands out fresh keys.  (The real slab may reuse a freed slot; no
  statement below depends on the identity of reused keys, and all concrete
  executions below perform no insertion after a removal, where the two
  allocation policies coincide.)
-/

set_option linter.unusedVariables false
set_option maxRecDepth 8192

/-! # String table and attribute ids (`strings.rs`, `events.rs`) -/

/-- Dense interned-string id; id 0 is the "not interned" sentinel. -/
abbrev StringId := Nat

/-- Dense attribute id: an index into the event's value vector. -/
abbrev AttributeId := Nat

/-! # Attribute values and events (`events.rs`) -/

/-- `AttributeValue` from `events.rs`: one slot of an event. -/
inductive AttributeValue where
  | Boolean (b : Bool)
  | Integer (i : Int)
  | Float (d : Rat)
  | String (s : StringId)
  | IntegerList (l : List Int)
  | StringList (l : List StringId)
  | Undefined
deriving DecidableEq, Repr

/-- `Event` from `events.rs`: a dense vector of attribute values indexed by
attribute id.  Rust indexes it with `event[attribute_id]`, which panics when
the id is out of range; evaluation below models that with `List.get?`. -/
abbrev Event := List AttributeValue

/-! # Predicate model (`predicates.rs`) -/

/-- `SetOperator` from `predicates.rs`. -/
inductive SetOperator where
  | NotIn
  | In
deriving DecidableEq, Repr

/-- `ComparisonOperator` from `predicates.rs`. -/
inductive ComparisonOperator where
  | LessThan
  | LessThanEqual
  | GreaterThanEqual
  | GreaterThan
deriving DecidableEq, Repr

/-- `ComparisonValue` from `predicates.rs`. -/
inductive ComparisonValue where
  | Integer (i : Int)
  | Float (d : Rat)
deriving DecidableEq, Repr

/-- `EqualityOperator` from `predicates.rs`. -/
inductive EqualityOperator where
  | Equal
  | NotEqual
deriving DecidableEq, Repr

/-- `ListOperator` from `predicates.rs`.  `NotAllOf` is internal-only, for
closure of structural negation. -/
inductive ListOperator where
  | OneOf
  | NoneOf
  | AllOf
  | NotAllOf
deriving DecidableEq, Repr

/-- `NullOperator` from `predicates.rs`. -/
inductive NullOperator where
  | IsNull
  | IsNotNull
  | IsEmpty
  | IsNotEmpty
deriving DecidableEq, Repr

/-- `ListLiteral` from `predicates.rs`: the canonicalized literal list
payload of set/list predicates. -/
inductive ListLiteral where
  | IntegerList (l : List Int)
  | StringList (l : List StringId)
deriving DecidableEq, Repr

/-- `PrimitiveLiteral` from `predicates.rs`. -/
inductive PrimitiveLiteral where
  | Integer (i : Int)
  | Float (d : Rat)
  | String (s : StringId)
deriving DecidableEq, Repr

/-- `PredicateKind` from `predicates.rs`. -/
inductive PredicateKind where
  | Variable
  | NegatedVariable
  | Set (op : SetOperator) (l : ListLiteral)
  | Comparison (op : ComparisonOperator) (v : ComparisonValue)
  | Equality (op : EqualityOperator) (v : PrimitiveLiteral)
  | List (op : ListOperator) (l : ListLiteral)
  | Null (op : NullOperator)
deriving DecidableEq, Repr

/-- `Predicate` from `predicates.rs`: an (attribute id, kind) pair.
The Rust field is named `attribute`; that word is a Lean keyword, so the
field is called `attr` here. -/
structure Predicate where
  attr : AttributeId
  kind : PredicateKind
deriving DecidableEq, Repr

/-- Rust `slice::binary_search` on a `Vec<T: Ord>`, returning whether the
needle was found (`is_ok`).  Implemented exactly as in the Rust standard
library: `left = 0, right = len` halving loop. -/
def binarySearchGo {α : Type} [LinearOrder α] (xs : List α) (needle : α) :
    Nat → Nat → Nat → Bool
  | 0, _, _ => false
  | fuel + 1, left, right =>
    if left < right then
      let mid := (left + right) / 2
      match xs.get? mid with
      | none => false
      | some x =>
        if x < needle then binarySearchGo xs needle fuel (mid + 1) right
        else if needle < x then binarySearchGo xs needle fuel left mid
        else true
    else false

/-- Entry point of the binary-search model: the interval halves on every
step, so `xs.length + 1` rounds of fuel always suffice. -/
def binarySearchContains {α : Type} [LinearOrder α] (xs : List α) (needle : α) : Bool :=
  binarySearchGo xs needle (xs.length + 1) 0 xs.length

/-- `SetOperator::apply` from `predicates.rs`: membership by binary search,
`In` when found, `NotIn` when not found. -/
def SetOperator.apply {α : Type} [LinearOrder α] (op : SetOperator) (haystack : List α)
    (needle : α) : Bool :=
  match op with
  | .In => binarySearchContains haystack needle
  | .NotIn => !binarySearchContains haystack needle

/-- `SetOperator::evaluate` from `predicates.rs`; the catch-all arm is an
`unreachable!` panic, modelled as `none`. -/
def SetOperator.evaluate (op : SetOperator) (haystack : ListLiteral)
    (needle : AttributeValue) : Option Bool :=
  match haystack, needle with
  | .StringList h, .String n => some (op.apply h n)
  | .IntegerList h, .Integer n => some (op.apply h n)
  | _, _ => none

/-- `ComparisonOperator::apply` from `predicates.rs`: `a` is the event
value, `b` the predicate literal. -/
def ComparisonOperator.apply {α : Type} [LinearOrder α] (op : ComparisonOperator)
    (a b : α) : Bool :=
  match op with
  | .LessThan => decide (a < b)
  | .LessThanEqual => decide (a ≤ b)
  | .GreaterThan => decide (b < a)
  | .GreaterThanEqual => decide (b ≤ a)

/-- `ComparisonOperator::evaluate` from `predicates.rs`: note that the
event value is passed as the left operand of `apply`; the catch-all arm is
an `unreachable!` panic (`none`). -/
def ComparisonOperator.evaluate (op : ComparisonOperator) (a : ComparisonValue)
    (b : AttributeValue) : Option Bool :=
  match a, b with
  | .Float bv, .Float av => some (op.apply av bv)
  | .Integer bv, .Integer av => some (op.apply av bv)
  | _, _ => none

/-- `EqualityOperator::apply` from `predicates.rs`. -/
def EqualityOperator.apply {α : Type} [DecidableEq α] (op : EqualityOperator)
    (a b : α) : Bool :=
  match op with
  | .Equal => decide (a = b)
  | .NotEqual => decide (a ≠ b)

/-- `EqualityOperator::evaluate` from `predicates.rs`; catch-all arm is an
`unreachable!` panic (`none`). -/
def EqualityOperator.evaluate (op : EqualityOperator) (a : PrimitiveLiteral)
    (b : AttributeValue) : Option Bool :=
  match a, b with
  | .Float av, .Float bv => some (op.apply av bv)
  | .Integer av, .Integer bv => some (op.apply av bv)
  | .String av, .String bv => some (op.apply av bv)
  | _, _ => none

/-- `one_of` from `predicates.rs`: the two-pointer merge over the two
(canonically sorted) lists; `left` is the event list, `right` the predicate
list.  The index loop is rendered as structural recursion on the two lists:
advancing `i` drops the head of `right`, advancing `j` drops the head of
`left`, exactly following the `y.cmp(x)` three-way branch. -/
def one_of {α : Type} [LinearOrder α] : List α → List α → Bool
  | [], _ => false
  | _, [] => false
  | x :: ls, y :: rs =>
    if y < x then one_of (x :: ls) rs
    else if y = x then true
    else one_of ls (y :: rs)
termination_by l r => l.length + r.length

/-- `none_of` from `predicates.rs`. -/
def none_of {α : Type} [LinearOrder α] (left right : List α) : Bool :=
  !one_of left right

/-- The merge loop of `all_of` from `predicates.rs` (after the length
guard): returns `j >= left.len()`, i.e. whether the whole of `left` was
consumed; the `Ordering::Greater` arm breaks with `left` not consumed. -/
def all_of_go {α : Type} [LinearOrder α] : List α → List α → Bool
  | [], _ => true
  | _ :: _, [] => false
  | x :: ls, y :: rs =>
    if y < x then all_of_go (x :: ls) rs
    else if y = x then all_of_go ls rs
    else false
termination_by l r => l.length + r.length

/-- `all_of` from `predicates.rs`: subset test of `left` in `right`. -/
def all_of {α : Type} [LinearOrder α] (left right : List α) : Bool :=
  if left.length > right.length then false else all_of_go left right

/-- `not_all_of` from `predicates.rs`. -/
def not_all_of {α : Type} [LinearOrder α] (left right : List α) : Bool :=
  !all_of left right

/-- `ListOperator::apply` from `predicates.rs`. -/
def ListOperator.apply {α : Type} [LinearOrder α] (op : ListOperator)
    (left right : List α) : Bool :=
  match op with
  | .OneOf => one_of left right
  | .NoneOf => none_of left right
  | .AllOf => all_of left right
  | .NotAllOf => not_all_of left right

/-- `ListOperator::evaluate` from `predicates.rs`; catch-all arm is an
`unreachable!` panic (`none`). -/
def ListOperator.evaluate (op : ListOperator) (a : ListLiteral)
    (b : AttributeValue) : Option Bool :=
  match a, b with
  | .StringList r, .StringList l => some (op.apply l r)
  | .IntegerList r, .IntegerList l => some (op.apply l r)
  | _, _ => none

/-- `NullOperator::evaluate` from `predicates.rs`.  The final catch-all arm
is an `unreachable!` panic ("should never happen. This is a bug."),
modelled as `none`; note that it catches `IsEmpty`/`IsNotEmpty` applied to
an `Undefined` slot. -/
def NullOperator.evaluate (op : NullOperator) (value : AttributeValue) : Option Bool :=
  match op, value with
  | .IsNull, .Undefined => some true
  | .IsNull, .Integer _ => some false
  | .IsNull, .String _ => some false
  | .IsNull, .Float _ => some false
  | .IsNull, .Boolean _ => some false
  | .IsNotNull, .Undefined => some false
  | .IsNotNull, .Integer _ => some true
  | .IsNotNull, .String _ => some true
  | .IsNotNull, .Float _ => some true
  | .IsNotNull, .Boolean _ => some true
  | .IsEmpty, .StringList l => some l.isEmpty
  | .IsEmpty, .IntegerList l => some l.isEmpty
  | .IsNotEmpty, .StringList l => some (!l.isEmpty)
  | .IsNotEmpty, .IntegerList l => some (!l.isEmpty)
  | _, _ => none

/-- `Predicate::evaluate` from `predicates.rs`.  The outer `Option` layer is
the panic layer: `none` stands for a Rust panic (out-of-range event index,
or one of the `unreachable!` arms); `some r` is the Rust return value
`r : Option<bool>`.  The match arms are in source order: the `Null` arm
first, then the `Undefined` arm, then the typed arms, then the catch-all
`unreachable!`. -/
def Predicate.evaluate (p : Predicate) (event : Event) : Option (Option Bool) :=
  match event.get? p.attr with
  | none => none
  | some value =>
    match p.kind, value with
    | .Null op, v => (op.evaluate v).map some
    | _, .Undefined => some none
    | .Variable, .Boolean b => some (some b)
    | .NegatedVariable, .Boolean b => some (some (!b))
    | .Set op haystack, needle => (op.evaluate haystack needle).map some
    | .Comparison op a, b => (op.evaluate a b).map some
    | .Equality op a, b => (op.evaluate a b).map some
    | .List op a, b => (op.evaluate a b).map some
    | _, _ => none

/-- `PredicateKind` cost constants and `PredicateKind::cost` from
`predicates.rs`. -/
def PredicateKind.cost : PredicateKind → Nat
  | .NegatedVariable => 0
  | .Variable => 0
  | .Null _ => 0
  | .Comparison _ _ => 0
  | .Equality _ _ => 0
  | .Set _ (.StringList list) => 1 * list.length
  | .Set _ (.IntegerList list) => 1 * list.length
  | .List _ (.StringList list) => 2 * list.length
  | .List _ (.IntegerList list) => 2 * list.length

/-- `Predicate::cost` from `predicates.rs`. -/
def Predicate.cost (p : Predicate) : Nat :=
  p.kind.cost

/-- `impl Not for PredicateKind` from `predicates.rs`: structural negation
by flipping the operator. -/
def PredicateKind.not : PredicateKind → PredicateKind
  | .Set .In value => .Set .NotIn value
  | .Set .NotIn value => .Set .In value
  | .Comparison .LessThan value => .Comparison .GreaterThanEqual value
  | .Comparison .LessThanEqual value => .Comparison .GreaterThan value
  | .Comparison .GreaterThan value => .Comparison .LessThanEqual value
  | .Comparison .GreaterThanEqual value => .Comparison .LessThan value
  | .Null .IsNull => .Null .IsNotNull
  | .Null .IsNotNull => .Null .IsNull
  | .Null .IsEmpty => .Null .IsNotEmpty
  | .Null .IsNotEmpty => .Null .IsEmpty
  | .Equality .Equal value => .Equality .NotEqual value
  | .Equality .NotEqual value => .Equality .Equal value
  | .List .OneOf value => .List .NoneOf value
  | .List .AllOf value => .List .NotAllOf value
  | .List .NotAllOf value => .List .AllOf value
  | .List .NoneOf value => .List .OneOf value
  | .Variable => .NegatedVariable
  | .NegatedVariable => .Variable

/-- `impl Not for Predicate` from `predicates.rs`. -/
def Predicate.not (p : Predicate) : Predicate :=
  { attr := p.attr, kind := p.kind.not }

/-! ## Predicate hashing (model of `Predicate::id` from `predicates.rs`)

`Predicate::id` feeds the canonical predicate through
`std::hash::DefaultHasher` and returns the 64-bit digest.  The hasher is
modelled by an explicit injective pairing-based encoding: structurally
equal predicates get equal ids (as with the real hasher), and distinct
predicates get distinct ids (the real hasher collides only with negligible
probability; no theorem below relies on a collision or on its absence). -/

/-- Injective encoding of `Int` into `Nat`. -/
def natOfInt : Int → Nat
  | .ofNat n => 2 * n
  | .negSucc n => 2 * n + 1

/-- Injective encoding of an integer list into `Nat`. -/
def encodeIntList : List Int → Nat
  | [] => 0
  | x :: xs => Nat.pair (natOfInt x) (encodeIntList xs) + 1

/-- Injective encoding of a string-id list into `Nat`. -/
def encodeNatList : List Nat → Nat
  | [] => 0
  | x :: xs => Nat.pair x (encodeNatList xs) + 1

/-- Injective encoding of `Rat` into `Nat` (numerator and denominator). -/
def encodeRat (q : Rat) : Nat :=
  Nat.pair (natOfInt q.num) q.den

/-- Injective encoding of `ListLiteral` into `Nat`. -/
def ListLiteral.encode : ListLiteral → Nat
  | .IntegerList l => Nat.pair 0 (encodeIntList l)
  | .StringList l => Nat.pair 1 (encodeNatList l)

/-- Injective encoding of `ComparisonValue` into `Nat`. -/
def ComparisonValue.encode : ComparisonValue → Nat
  | .Integer i => Nat.pair 0 (natOfInt i)
  | .Float d => Nat.pair 1 (encodeRat d)

/-- Injective encoding of `PrimitiveLiteral` into `Nat`. -/
def PrimitiveLiteral.encode : PrimitiveLiteral → Nat
  | .Integer i => Nat.pair 0 (natOfInt i)
  | .Float d => Nat.pair 1 (encodeRat d)
  | .String s => Nat.pair 2 s

/-- Small tags of the operator enums, for the encoding. -/
def SetOperator.encode : SetOperator → Nat
  | .NotIn => 0
  | .In => 1

/-- Small tags of the comparison operators, for the encoding. -/
def ComparisonOperator.encode : ComparisonOperator → Nat
  | .LessThan => 0
  | .LessThanEqual => 1
  | .GreaterThanEqual => 2
  | .GreaterThan => 3

/-- Small tags of the equality operators, for the encoding. -/
def EqualityOperator.encode : EqualityOperator → Nat
  | .Equal => 0
  | .NotEqual => 1

/-- Small tags of the list operators, for the encoding. -/
def ListOperator.encode : ListOperator → Nat
  | .OneOf => 0
  | .NoneOf => 1
  | .AllOf => 2
  | .NotAllOf => 3

/-- Small tags of the null operators, for the encoding. -/
def NullOperator.encode : NullOperator → Nat
  | .IsNull => 0
  | .IsNotNull => 1
  | .IsEmpty => 2
  | .IsNotEmpty => 3

/-- Injective encoding of `PredicateKind` into `Nat`. -/
def PredicateKind.encode : PredicateKind → Nat
  | .Variable => Nat.pair 0 0
  | .NegatedVariable => Nat.pair 1 0
  | .Set op l => Nat.pair 2 (Nat.pair op.encode l.encode)
  | .Comparison op v => Nat.pair 3 (Nat.pair op.encode v.encode)
  | .Equality op v => Nat.pair 4 (Nat.pair op.encode v.encode)
  | .List op l => Nat.pair 5 (Nat.pair op.encode l.encode)
  | .Null op => Nat.pair 6 op.encode

/-- The wrapping modulus of `u64` arithmetic. -/
def U64 : Nat := 2 ^ 64

/-- Model of `Predicate::id` from `predicates.rs` (see the section header
comment).  The multiplier spreads leaf ids apart so that the sums and
products formed by `OptimizedNode::id` on the small expressions used in the
concrete executions below do not collide, mirroring the practical behaviour
of the 64-bit hash. -/
def Predicate.idHash (p : Predicate) : Nat :=
  10000019 * (Nat.pair p.attr p.kind.encode + 1) % U64

/-! # The AST and the zero-suppression optimizer (`ast.rs`) -/

/-- `Node` from `ast.rs`: the parsed, untyped expression tree. -/
inductive Node where
  | And (l r : Node)
  | Or (l r : Node)
  | Not (x : Node)
  | Value (p : Predicate)
deriving DecidableEq, Repr

/-- `OptimizedNode` from `ast.rs`: negation-free expression tree. -/
inductive OptimizedNode where
  | And (l r : OptimizedNode)
  | Or (l r : OptimizedNode)
  | Value (p : Predicate)
deriving DecidableEq, Repr

/-- `Operator` from `ast.rs`. -/
inductive Operator where
  | And
  | Or
deriving DecidableEq, Repr

/-- `OptimizedNode::id` from `ast.rs`: wrapping multiplication for `And`,
wrapping addition for `Or`, predicate hash for leaves. -/
def OptimizedNode.exprId : OptimizedNode → Nat
  | .And left right => left.exprId * right.exprId % U64
  | .Or left right => (left.exprId + right.exprId) % U64
  | .Value node => node.idHash

/-- `OptimizedNode::cost` from `ast.rs`. -/
def OptimizedNode.cost : OptimizedNode → Nat
  | .And left right => left.cost + right.cost + 50
  | .Or left right => left.cost + right.cost + 60
  | .Value node => node.cost

/-- `Node::zero_suppression_filter` from `ast.rs`: push a `negate` flag
down the tree, De Morgan on `And`/`Or`, toggle on `Not`, structural
predicate negation at the leaves. -/
def Node.zero_suppression_filter : Node → Bool → OptimizedNode
  | .And left right, true =>
    .Or (left.zero_suppression_filter true) (right.zero_suppression_filter true)
  | .Or left right, true =>
    .And (left.zero_suppression_filter true) (right.zero_suppression_filter true)
  | .Not value, true => value.zero_suppression_filter false
  | .Not value, false => value.zero_suppression_filter true
  | .Value predicate, true => .Value predicate.not
  | .And left right, false =>
    .And (left.zero_suppression_filter false) (right.zero_suppression_filter false)
  | .Or left right, false =>
    .Or (left.zero_suppression_filter false) (right.zero_suppression_filter false)
  | .Value predicate, false => .Value predicate

/-- `Node::optimize` from `ast.rs`. -/
def Node.optimize (t : Node) : OptimizedNode :=
  t.zero_suppression_filter false

/-! ## Reference three-valued semantics

The repository evaluates only leaf predicates directly
(`Predicate::evaluate`); composite results are produced by the engine's
`evaluate_and` / `evaluate_or` fold (`atree.rs`), whose truth tables are
Kleene's strong three-valued AND/OR on `Option<bool>`.  The claims compare
the engine, and the optimizer, against direct tree evaluation under
exactly those tables, so the two tree evaluators below are the reference
semantics stated by the specification (spec section 4.5 and claims C1/C2):
`Not` maps `Some(b)` to `Some(!b)` and `None` to `None`; `And`/`Or` are
Kleene.  The outer `Option` layer again propagates leaf panics. -/

/-- Kleene three-valued AND on `Option Bool` (the truth table of the
engine's `evaluate_and` fold in `atree.rs`). -/
def kleeneAnd : Option Bool → Option Bool → Option Bool
  | some false, _ => some false
  | _, some false => some false
  | some a, some b => some (a && b)
  | _, _ => none

/-- Kleene three-valued OR on `Option Bool` (the truth table of the
engine's `evaluate_or` fold in `atree.rs`). -/
def kleeneOr : Option Bool → Option Bool → Option Bool
  | some true, _ => some true
  | _, some true => some true
  | some a, some b => some (a || b)
  | _, _ => none

/-- Reference evaluation of an optimized (negation-free) tree against an
event: leaves by `Predicate::evaluate`, `And`/`Or` by Kleene logic, with
leaf panics propagated. -/
def OptimizedNode.evaluate : OptimizedNode → Event → Option (Option Bool)
  | .And l r, e =>
    match l.evaluate e, r.evaluate e with
    | some a, some b => some (kleeneAnd a b)
    | _, _ => none
  | .Or l r, e =>
    match l.evaluate e, r.evaluate e with
    | some a, some b => some (kleeneOr a b)
    | _, _ => none
  | .Value p, e => p.evaluate e

/-- Reference evaluation of a raw AST against an event: as
`OptimizedNode.evaluate`, with `Not` mapping `Some(b)` to `Some(!b)` and
`None` to `None`. -/
def Node.evaluate : Node → Event → Option (Option Bool)
  | .And l r, e =>
    match l.evaluate e, r.evaluate e with
    | some a, some b => some (kleeneAnd a b)
    | _, _ => none
  | .Or l r, e =>
    match l.evaluate e, r.evaluate e with
    | some a, some b => some (kleeneOr a b)
    | _, _ => none
  | .Not x, e =>
    match x.evaluate e with
    | some a => some (a.map Bool.not)
    | none => none
  | .Value p, e => p.evaluate e

/-! # The A-Tree engine (`atree.rs`) -/

/-! Node indices into the arena (slab keys) are plain `Nat` (written out
rather than behind an abbreviation, which this Mathlib version's `omega`
does not see through). -/

/-- Association-list lookup (first matching key), the model of both
`HashMap` lookup and slab indexing. -/
def lookupA {α β : Type} [DecidableEq α] : List (α × β) → α → Option β
  | [], _ => none
  | (k, v) :: rest, key => if k = key then some v else lookupA rest key

/-- Pointwise update of the value at a key (no-op when the key is absent),
the model of mutating through an index. -/
def updateA {α β : Type} [DecidableEq α] (m : List (α × β)) (key : α) (f : β → β) :
    List (α × β) :=
  m.map fun p => if p.1 = key then (p.1, f p.2) else p

/-- Key removal, the model of `HashMap::remove` and `Slab::remove`. -/
def removeA {α β : Type} [DecidableEq α] (m : List (α × β)) (key : α) : List (α × β) :=
  m.filter fun p => p.1 ≠ key

/-- `HashMap::insert` (replace-or-add semantics). -/
def insertA {α β : Type} [DecidableEq α] (m : List (α × β)) (key : α) (v : β) :
    List (α × β) :=
  (key, v) :: removeA m key

/-- `LNode` from `atree.rs`. -/
structure LNode where
  parents : List Nat
  level : Nat
  predicate : Predicate
deriving DecidableEq, Repr

/-- `INode` from `atree.rs`. -/
structure INode where
  parents : List Nat
  children : List Nat
  level : Nat
  operator : Operator
deriving DecidableEq, Repr

/-- `RNode` from `atree.rs`. -/
structure RNode where
  children : List Nat
  level : Nat
  operator : Operator
deriving DecidableEq, Repr

/-- `ATreeNode` from `atree.rs`. -/
inductive ATreeNode where
  | LNode (n : LNode)
  | INode (n : INode)
  | RNode (n : RNode)
deriving DecidableEq, Repr

/-- `ATreeNode::lnode` from `atree.rs`. -/
def ATreeNode.lnode (predicate : Predicate) : ATreeNode :=
  .LNode { level := 1, parents := [], predicate := predicate }

/-- `ATreeNode::level` from `atree.rs`. -/
def ATreeNode.level : ATreeNode → Nat
  | .RNode node => node.level
  | .LNode node => node.level
  | .INode node => node.level

/-- `ATreeNode::evaluate` from `atree.rs`; evaluating a non-leaf is an
`unreachable!` panic (`none` in the outer layer). -/
def ATreeNode.evaluate (n : ATreeNode) (event : Event) : Option (Option Bool) :=
  match n with
  | .LNode node => node.predicate.evaluate event
  | _ => none

/-- `ATreeNode::operator` from `atree.rs`; `none` is the `unreachable!`
panic on leaves. -/
def ATreeNode.operatorO : ATreeNode → Option Operator
  | .LNode _ => none
  | .RNode node => some node.operator
  | .INode node => some node.operator

/-- `ATreeNode::children` from `atree.rs`; `none` is the `unreachable!`
panic on leaves. -/
def ATreeNode.childrenO : ATreeNode → Option (List Nat)
  | .INode node => some node.children
  | .RNode node => some node.children
  | .LNode _ => none

/-- `ATreeNode::parents` from `atree.rs`; `none` is the `unreachable!`
panic on roots. -/
def ATreeNode.parentsO : ATreeNode → Option (List Nat)
  | .INode node => some node.parents
  | .LNode node => some node.parents
  | .RNode _ => none

/-- `ATreeNode::add_parent` from `atree.rs`.  Adding a parent to an
`RNode` is an `unreachable!` panic in Rust; the engine never does it
(children returned by `insert_node` are never `RNode`s), and the model
leaves the node unchanged in that dead branch. -/
def ATreeNode.add_parent (n : ATreeNode) (parent_id : Nat) : ATreeNode :=
  match n with
  | .INode node => .INode { node with parents := node.parents ++ [parent_id] }
  | .LNode node => .LNode { node with parents := node.parents ++ [parent_id] }
  | .RNode node => .RNode node

/-- `Entry` from `atree.rs`: the arena slot shared by all node variants. -/
structure Entry (T : Type) where
  id : Nat
  subscription_ids : List T
  node : ATreeNode
  use_count : Nat
  cost : Nat
deriving DecidableEq, Repr

/-- `Entry::new` from `atree.rs`. -/
def Entry.new {T : Type} (id : Nat) (node : ATreeNode) (subscription_id : Option T)
    (cost : Nat) : Entry T :=
  { id := id
    node := node
    use_count := 1
    subscription_ids := subscription_id.elim [] fun s => [s]
    cost := cost }

/-- `Entry::is_leaf` from `atree.rs`. -/
def Entry.is_leaf {T : Type} (e : Entry T) : Bool :=
  match e.node with
  | .LNode _ => true
  | _ => false

/-- `Entry::is_root` from `atree.rs`. -/
def Entry.is_root {T : Type} (e : Entry T) : Bool :=
  match e.node with
  | .RNode _ => true
  | _ => false

/-- `Entry::level` from `atree.rs`. -/
def Entry.level {T : Type} (e : Entry T) : Nat :=
  e.node.level

/-- Stand-in entry returned by the total arena read `getEntryD` below when
the key is vacant.  Rust would panic there; the engine's insertion and
wiring code only ever indexes keys it has just created or found in the
expression map, so this default is never read on the states the theorems
below quantify over (the `WF` invariant makes that precise). -/
def panicEntry {T : Type} : Entry T :=
  { id := 0, subscription_ids := [], node := .LNode { parents := [], level := 1, predicate := { attr := 0, kind := .Variable } }, use_count := 0, cost := 0 }

/-- Total arena read, the model of `self.nodes[id]` inside the insertion
path (see `panicEntry`). -/
def getEntryD {T : Type} (nodes : List (Nat × Entry T)) (id : Nat) : Entry T :=
  (lookupA nodes id).getD panicEntry

/-- The `ATree` engine state from `atree.rs`.  The string and attribute
tables are omitted: they feed only the parser and the event builder, which
are modelled separately; insertion is modelled from `insert_root` on, i.e.
on already-parsed, already-optimized expressions, exactly the point at
which `ATree::insert` hands over after `parser::parse` and `optimize`. -/
structure ATree (T : Type) where
  nodes : List (Nat × Entry T)
  nextId : Nat
  roots : List Nat
  maxLevel : Nat
  predicates : List Nat
  expressionToNode : List (Nat × Nat)
  nodesByIds : List (T × Nat)
deriving DecidableEq, Repr

/-- `ATree::new` from `atree.rs` (state part: empty arena, empty root and
entry sets, `max_level = 1`). -/
def ATree.new (T : Type) : ATree T :=
  { nodes := []
    nextId := 0
    roots := []
    maxLevel := 1
    predicates := []
    expressionToNode := []
    nodesByIds := [] }

/-- Free function `insert_node` from `atree.rs` (renamed `insert_entry`
here because the method `ATree::insert_node` of the same name would shadow
it inside its own namespace): allocate an arena slot for a new entry and
record its expression id.  (The Rust function asserts that the expression
id was not already mapped; every caller checks that first.) -/
def insert_entry {T : Type} (s : ATree T) (expression_id : Nat) (node : ATreeNode)
    (subscription_id : Option T) (cost : Nat) : ATree T × Nat :=
  let node_id := s.nextId
  ({ s with
      nodes := (node_id, Entry.new expression_id node subscription_id cost) :: s.nodes
      nextId := node_id + 1
      expressionToNode := insertA s.expressionToNode expression_id node_id },
    node_id)

/-- Free function `add_parent` from `atree.rs` (lifted to the arena). -/
def add_parent {T : Type} (nodes : List (Nat × Entry T)) (id parent_id : Nat) :
    List (Nat × Entry T) :=
  updateA nodes id fun e => { e with node := e.node.add_parent parent_id }

/-- Free function `add_subscription_id` from `atree.rs`. -/
def add_subscription_id {T : Type} [DecidableEq T] (subscription_id : T) (node_id : Nat)
    (s : ATree T) : ATree T :=
  { s with
      nodes := updateA s.nodes node_id fun e =>
        { e with subscription_ids := e.subscription_ids ++ [subscription_id] }
      nodesByIds := insertA s.nodesByIds subscription_id node_id }

/-- Free function `increment_use_count` from `atree.rs`. -/
def increment_use_count {T : Type} (node_id : Nat) (nodes : List (Nat × Entry T)) :
    List (Nat × Entry T) :=
  updateA nodes node_id fun e => { e with use_count := e.use_count + 1 }

/-- Free function `get_max_level` from `atree.rs`:
`roots.iter().map(level).max().unwrap_or(1)`. -/
def get_max_level {T : Type} (roots : List Nat) (nodes : List (Nat × Entry T)) : Nat :=
  let levels := roots.map fun root_id => (getEntryD nodes root_id).level
  match levels with
  | [] => 1
  | l :: ls => ls.foldl Nat.max l

/-- Free function `change_rnode_to_inode` from `atree.rs`. -/
def change_rnode_to_inode {T : Type} (node_id : Nat) (nodes : List (Nat × Entry T)) :
    List (Nat × Entry T) :=
  updateA nodes node_id fun e =>
    match e.node with
    | .RNode r =>
      { e with node := .INode { parents := [], children := r.children, level := r.level, operator := r.operator } }
    | _ => e

/-- Free function `add_predicate` from `atree.rs`: record a leaf in the
predicate entry set unless already present. -/
def add_predicate {T : Type} (node_id : Nat) (nodes : List (Nat × Entry T))
    (predicates : List Nat) : List Nat :=
  if (getEntryD nodes node_id).is_leaf && !(predicates.contains node_id) then
    predicates ++ [node_id]
  else predicates

/-- Free function `choose_access_child` from `atree.rs`: the access child
of an AND node is the left child exactly when its entry cost is strictly
smaller; it alone gains the parent edge and (if a leaf) entry-set
membership. -/
def choose_access_child {T : Type} (left_id right_id parent_id : Nat) (s : ATree T) :
    ATree T :=
  let left_entry := getEntryD s.nodes left_id
  let right_entry := getEntryD s.nodes right_id
  let accessor_id := if left_entry.cost < right_entry.cost then left_id else right_id
  let nodes := add_parent s.nodes accessor_id parent_id
  { s with nodes := nodes, predicates := add_predicate accessor_id nodes s.predicates }

/-- The children vector of a freshly created composite node, from the
shared expression of `ATree::insert_node` / `ATree::insert_root` in
`atree.rs`: cheaper entry first, the left operand staying first on ties. -/
def composite_children {T : Type} (nodes : List (Nat × Entry T))
    (left_id right_id : Nat) : List Nat :=
  if (getEntryD nodes left_id).cost > (getEntryD nodes right_id).cost then
    [right_id, left_id]
  else [left_id, right_id]

/-- The tail both `ATree::insert_node` and `ATree::insert_root` share for a
fresh composite node (`atree.rs`): allocate the entry, then wire the edges
by operator, the access child alone for AND, both children (and their
entry-set membership) for OR. -/
def wire_composite {T : Type} (s2 : ATree T) (expression_id : Nat) (is_and : Bool)
    (node : ATreeNode) (subscription_id : Option T) (cost : Nat)
    (left_id right_id : Nat) : ATree T × Nat :=
  let p3 := insert_entry s2 expression_id node subscription_id cost
  let node_id := p3.2
  let s3 := p3.1
  let s4 :=
    if is_and then choose_access_child left_id right_id node_id s3
    else
      let nodes := add_parent (add_parent s3.nodes left_id node_id) right_id node_id
      let predicates := add_predicate right_id nodes (add_predicate left_id nodes s3.predicates)
      { s3 with nodes := nodes, predicates := predicates }
  (s4, node_id)

/-- Method `ATree::insert_node` from `atree.rs`: recursively insert a
sub-expression as an I-node (or deduplicate onto an existing node,
demoting an R-node to an I-node and bumping its use count).  The Rust
function computes its `is_and` flag before one merged `And | Or` match
arm; here the dispatch on the node shape is hoisted outermost (which the
equation compiler handles), with the expression-id-hit branch repeated
verbatim in each arm and `is_and` resolved per arm. -/
def ATree.insert_node {T : Type} : ATree T → OptimizedNode → ATree T × Nat
  | s, .And left right =>
    match lookupA s.expressionToNode (OptimizedNode.And left right).exprId with
    | some node_id =>
      ({ s with nodes := increment_use_count node_id (change_rnode_to_inode node_id s.nodes) },
        node_id)
    | none =>
      let p1 := s.insert_node left
      let left_id := p1.2
      let p2 := p1.1.insert_node right
      let right_id := p2.2
      let s2 := p2.1
      let inode : ATreeNode := .INode
        { parents := []
          level := 1 + Nat.max (getEntryD s2.nodes left_id).node.level
            (getEntryD s2.nodes right_id).node.level
          operator := .And
          children := composite_children s2.nodes left_id right_id }
      wire_composite s2 (OptimizedNode.And left right).exprId true inode none
        (OptimizedNode.And left right).cost left_id right_id
  | s, .Or left right =>
    match lookupA s.expressionToNode (OptimizedNode.Or left right).exprId with
    | some node_id =>
      ({ s with nodes := increment_use_count node_id (change_rnode_to_inode node_id s.nodes) },
        node_id)
    | none =>
      let p1 := s.insert_node left
      let left_id := p1.2
      let p2 := p1.1.insert_node right
      let right_id := p2.2
      let s2 := p2.1
      let inode : ATreeNode := .INode
        { parents := []
          level := 1 + Nat.max (getEntryD s2.nodes left_id).node.level
            (getEntryD s2.nodes right_id).node.level
          operator := .Or
          children := composite_children s2.nodes left_id right_id }
      wire_composite s2 (OptimizedNode.Or left right).exprId false inode none
        (OptimizedNode.Or left right).cost left_id right_id
  | s, .Value value =>
    match lookupA s.expressionToNode (OptimizedNode.Value value).exprId with
    | some node_id =>
      ({ s with nodes := increment_use_count node_id (change_rnode_to_inode node_id s.nodes) },
        node_id)
    | none =>
      insert_entry s (OptimizedNode.Value value).exprId (ATreeNode.lnode value) none
        (OptimizedNode.Value value).cost

/-- Method `ATree::insert_root` from `atree.rs`: top-level insertion of an
optimized expression for a subscription id.  On an expression-id hit it
attaches the subscription id, bumps the use count and returns (leaving
`roots` and `max_level` untouched); otherwise it creates the node (R-node
for composites, plain L-node for a bare predicate), wires the edges (both
children for OR, the access child only for AND), then records the
subscription, appends to the root set and recomputes `max_level`. -/
def ATree.insert_root {T : Type} [DecidableEq T] (s : ATree T) (subscription_id : T)
    (root : OptimizedNode) : ATree T :=
  let expression_id := root.exprId
  match lookupA s.expressionToNode expression_id with
  | some node_id =>
    let s1 := add_subscription_id subscription_id node_id s
    { s1 with nodes := increment_use_count node_id s1.nodes }
  | none =>
    let is_and := match root with | .And _ _ => true | _ => false
    let cost := root.cost
    let p :=
      match root with
      | .And left right | .Or left right =>
        let p1 := s.insert_node left
        let left_id := p1.2
        let p2 := p1.1.insert_node right
        let right_id := p2.2
        let s2 := p2.1
        let rnode : ATreeNode := .RNode
          { level := 1 + Nat.max (getEntryD s2.nodes left_id).node.level
              (getEntryD s2.nodes right_id).node.level
            operator := if is_and then .And else .Or
            children := composite_children s2.nodes left_id right_id }
        wire_composite s2 expression_id is_and rnode (some subscription_id) cost
          left_id right_id
      | .Value value =>
        let p1 := insert_entry s expression_id (ATreeNode.lnode value) (some subscription_id) cost
        ({ p1.1 with predicates := p1.1.predicates ++ [p1.2] }, p1.2)
    let s5 := { p.1 with
      nodesByIds := insertA p.1.nodesByIds subscription_id p.2
      roots := p.1.roots ++ [p.2] }
    { s5 with maxLevel := get_max_level s5.roots s5.nodes }

/-- Free function `decrement_use_count` from `atree.rs`: remove one use of
a node for a deleted subscription; `retain` strips every copy of the
subscription id from the entry.  When the count reaches zero the node is
unlinked from the root and entry sets and the maps, `max_level` is
recomputed, the slot is freed, and the children (of a non-leaf) are
returned for cascading.  Indexing a vacant slot would panic in Rust; the
delete path only reaches live ids, and the model returns the state
unchanged in that dead branch. -/
def decrement_use_count {T : Type} [DecidableEq T] (subscription_id : T) (node_id : Nat)
    (s : ATree T) : ATree T × Option (List Nat) :=
  match lookupA s.nodes node_id with
  | none => (s, none)
  | some e =>
    let e1 := { e with
      use_count := e.use_count - 1
      subscription_ids := e.subscription_ids.filter fun x => x ≠ subscription_id }
    let nodesByIds := removeA s.nodesByIds subscription_id
    if e1.use_count = 0 then
      let children := if e1.is_leaf then none else some (e1.node.childrenO.getD [])
      let roots := s.roots.filter fun x => x ≠ node_id
      let predicates := s.predicates.filter fun x => x ≠ node_id
      let nodes1 := updateA s.nodes node_id fun _ => e1
      let maxLevel := get_max_level roots nodes1
      ({ s with
          nodes := removeA nodes1 node_id
          roots := roots
          predicates := predicates
          maxLevel := maxLevel
          expressionToNode := removeA s.expressionToNode e.id
          nodesByIds := nodesByIds },
        children)
    else
      ({ s with
          nodes := updateA s.nodes node_id fun _ => e1
          nodesByIds := nodesByIds },
        none)

/-- Method `ATree::delete_node` from `atree.rs`: decrement, then cascade
into the children when the node was freed.  The Rust recursion is bounded
by the (acyclic) child graph; the model carries explicit fuel, consumed
once per visited node, and `ATree.delete` supplies more fuel than any
cascade can use. -/
def ATree.delete_node {T : Type} [DecidableEq T] :
    Nat → T → Nat → ATree T → ATree T
  | 0, _, _, s => s
  | fuel + 1, subscription_id, node_id, s =>
    let p := decrement_use_count subscription_id node_id s
    match p.2 with
    | none => p.1
    | some children =>
      children.foldl (fun acc child => ATree.delete_node fuel subscription_id child acc) p.1

/-- Method `ATree::delete` from `atree.rs`: look the subscription id up and
cascade; unknown ids are a silent no-op.  Each node of a cascade consumes
one unit of fuel and strictly shrinks the arena or stops, so fuel equal to
the arena size plus one suffices for any actual cascade. -/
def ATree.delete {T : Type} [DecidableEq T] (s : ATree T) (subscription_id : T) : ATree T :=
  match lookupA s.nodesByIds subscription_id with
  | none => s
  | some node_id => ATree.delete_node (s.nodes.length + 1) subscription_id node_id s

/-! # The per-search result bit set (`evaluation.rs`) -/

/-- `EvaluationResult` from `evaluation.rs`: three planes of 64-bit words
(`failed`, `success`, `evaluated`) indexed by node id. -/
structure EvaluationResult where
  failed : List Nat
  success : List Nat
  evaluated : List Nat
deriving DecidableEq, Repr

/-- `EvaluationResult::new` from `evaluation.rs`: `expressions / 64 + 1`
words per plane. -/
def EvaluationResult.new (expressions : Nat) : EvaluationResult :=
  let size := expressions / 64 + 1
  { failed := List.replicate size 0
    success := List.replicate size 0
    evaluated := List.replicate size 0 }

/-- `EvaluationResult::get_bit` from `evaluation.rs`; `none` is the panic
on an out-of-range word index. -/
def EvaluationResult.get_bit (entries : List Nat) (id : Nat) : Option Nat :=
  (entries.get? (id / 64)).map fun entry => entry &&& (1 <<< (id % 64))

/-- `EvaluationResult::set_bit` from `evaluation.rs`; `none` is the panic
on an out-of-range word index. -/
def EvaluationResult.set_bit (entries : List Nat) (id : Nat) : Option (List Nat) :=
  match entries.get? (id / 64) with
  | none => none
  | some entry => some (entries.set (id / 64) (entry ||| (1 <<< (id % 64))))

/-- `EvaluationResult::is_evaluated` from `evaluation.rs`. -/
def EvaluationResult.is_evaluated (r : EvaluationResult) (id : Nat) : Option Bool :=
  (EvaluationResult.get_bit r.evaluated id).map fun b => b ≠ 0

/-- `EvaluationResult::set_result` from `evaluation.rs`: set the value bit
for a concrete outcome, then always set the `evaluated` bit. -/
def EvaluationResult.set_result (r : EvaluationResult) (id : Nat) (result : Option Bool) :
    Option EvaluationResult := do
  let r1 ←
    match result with
    | some true => do
      let success ← EvaluationResult.set_bit r.success id
      pure { r with success := success }
    | some false => do
      let failed ← EvaluationResult.set_bit r.failed id
      pure { r with failed := failed }
    | none => pure r
  let evaluated ← EvaluationResult.set_bit r1.evaluated id
  pure { r1 with evaluated := evaluated }

/-- `EvaluationResult::get_result` from `evaluation.rs`. -/
def EvaluationResult.get_result (r : EvaluationResult) (id : Nat) : Option (Option Bool) := do
  let failed ← EvaluationResult.get_bit r.failed id
  let success ← EvaluationResult.get_bit r.success id
  let failedB := failed ≠ 0
  let successB := success ≠ 0
  if !failedB && !successB then pure none
  else pure (some (!failedB && successB))

/-! # Search (`atree.rs`) -/

/-- `add_matches` from `atree.rs`: a node that resolved to `Some(true)`
emits its attached subscription ids, in order, onto the match list (the Rust parameter is named `matches`, a reserved word in Lean, hence `matchList`). -/
def add_matches {T : Type} (result : Option Bool) (node : Entry T) (matchList : List T) :
    List T :=
  if !node.subscription_ids.isEmpty then
    match result with
    | some true => matchList ++ node.subscription_ids
    | _ => matchList
  else matchList

/-- A level queue: pushed and popped at the head (the Rust code pushes and
pops at the tail of a `Vec`; both are the same LIFO discipline). -/
abbrev SearchQueues := List (List Nat)

/-- The propagation step shared by `process_predicates` and the level walk
of `search` in `atree.rs`: on a `Some(false)` child of an AND parent mark
the parent failed without enqueueing, otherwise enqueue the parent at
queue index `level - 2`.  `checkEvaluated` distinguishes the two call
sites: the level walk skips parents already evaluated, the predicate sweep
does not check.  `none` is the Rust panic, either on indexing a vacant
arena slot (a dangling parent edge) or on an out-of-range queue index. -/
def propagate_to_parent {T : Type} (s : ATree T) (checkEvaluated : Bool)
    (result : Option Bool) (parent_id : Nat) (results : EvaluationResult)
    (queues : SearchQueues) : Option (EvaluationResult × SearchQueues) := do
  match lookupA s.nodes parent_id with
  | none => none
  | some entry => do
    if checkEvaluated then
      let is_evaluated ← results.is_evaluated parent_id
      if !is_evaluated ∧ entry.node.operatorO = some .And ∧ result = some false then do
        let results ← results.set_result parent_id (some false)
        pure (results, queues)
      else if !is_evaluated then
        match queues.get? (entry.level - 2) with
        | none => none
        | some q => pure (results, queues.set (entry.level - 2) (parent_id :: q))
      else
        pure (results, queues)
    else do
      let op ← entry.node.operatorO
      if op = .And ∧ result = some false then do
        let results ← results.set_result parent_id (some false)
        pure (results, queues)
      else
        match queues.get? (entry.level - 2) with
        | none => none
        | some q => pure (results, queues.set (entry.level - 2) (parent_id :: q))

/-- One leaf of the predicate sweep (`process_predicates` loop body from
`atree.rs`): skip dead or already-evaluated leaves, otherwise evaluate the
predicate, record, emit matchList, and propagate to every parent. -/
def process_one_predicate {T : Type} (s : ATree T) (event : Event) (predicate_id : Nat)
    (acc : List T × EvaluationResult × SearchQueues) :
    Option (List T × EvaluationResult × SearchQueues) := do
  let (matchList, results, queues) := acc
  match lookupA s.nodes predicate_id with
  | none => none
  | some node => do
    let parents ← node.node.parentsO
    let delay_evaluation := node.subscription_ids.isEmpty && parents.isEmpty
    let is_evaluated ← results.is_evaluated predicate_id
    if delay_evaluation || is_evaluated then
      pure (matchList, results, queues)
    else do
      let result ← node.node.evaluate event
      let results ← results.set_result predicate_id result
      let matchList := add_matches result node matchList
      let step := fun (st : Option (EvaluationResult × SearchQueues)) parent_id => do
        let (results, queues) ← st
        propagate_to_parent s false result parent_id results queues
      let (results, queues) ← parents.foldl step (some (results, queues))
      pure (matchList, results, queues)

/-- `process_predicates` from `atree.rs`: sweep the predicate entry set. -/
def process_predicates {T : Type} (s : ATree T) (event : Event)
    (results : EvaluationResult) (queues : SearchQueues) :
    Option (List T × EvaluationResult × SearchQueues) :=
  s.predicates.foldlM (fun acc pid => process_one_predicate s event pid acc)
    ([], results, queues)

/-! `evaluate_node` / `evaluate_and` / `evaluate_or` / `lazy_evaluate` from
`atree.rs`, as one fuelled mutual recursion.  The Rust recursion depth is
bounded by the node's level; `lazy_evaluate` consumes one unit of fuel per
nested composite child, so any fuel larger than the maximum level
suffices. -/
mutual

/-- `evaluate_node` from `atree.rs`: dispatch on the operator, fold the
children, record the result in the bit set. -/
def evaluate_node {T : Type} (s : ATree T) (event : Event) (fuel : Nat)
    (node_id : Nat) (node : Entry T) (results : EvaluationResult)
    (matchList : List T) : Option (Option Bool × EvaluationResult × List T) := do
  let op ← node.node.operatorO
  let children ← node.node.childrenO
  let p ←
    match op with
    | .And => evaluate_children s event fuel true (some true) children results matchList
    | .Or => evaluate_children s event fuel false (some false) children results matchList
  let results2 ← p.2.1.set_result node_id p.1
  pure (p.1, results2, p.2.2)
termination_by (fuel, 2, 0)

/-- The child fold of `evaluate_and` (`isAnd = true`, accumulator starting
at `Some(true)`) and `evaluate_or` (`isAnd = false`, accumulator starting
at `Some(false)`) from `atree.rs`: each child is lazily evaluated first,
then folded with short-circuit. -/
def evaluate_children {T : Type} (s : ATree T) (event : Event) (fuel : Nat)
    (isAnd : Bool) (acc : Option Bool) (children : List Nat)
    (results : EvaluationResult) (matchList : List T) :
    Option (Option Bool × EvaluationResult × List T) := do
  match children with
  | [] => pure (acc, results, matchList)
  | child_id :: rest => do
    let p ← lazy_evaluate s event fuel child_id results matchList
    let result := p.1
    let results := p.2.1
    let matchList := p.2.2
    if isAnd then
      match acc, result with
      | some false, _ => pure (some false, results, matchList)
      | _, some false => pure (some false, results, matchList)
      | some a, some b => evaluate_children s event fuel isAnd (some (a && b)) rest results matchList
      | _, _ => evaluate_children s event fuel isAnd none rest results matchList
    else
      match acc, result with
      | some true, _ => pure (some true, results, matchList)
      | _, some true => pure (some true, results, matchList)
      | some a, some b => evaluate_children s event fuel isAnd (some (a || b)) rest results matchList
      | _, _ => evaluate_children s event fuel isAnd none rest results matchList
termination_by (fuel, 1, children.length)

/-- `lazy_evaluate` from `atree.rs`: cached result, or leaf evaluation on
the spot, or recursion into `evaluate_node`; every result produced here
also emits matches for the child node. -/
def lazy_evaluate {T : Type} (s : ATree T) (event : Event) (fuel : Nat)
    (node_id : Nat) (results : EvaluationResult) (matchList : List T) :
    Option (Option Bool × EvaluationResult × List T) := do
  match fuel with
  | 0 => none
  | fuel1 + 1 => do
    let is_evaluated ← results.is_evaluated node_id
    if is_evaluated then do
      let result ← results.get_result node_id
      pure (result, results, matchList)
    else
      match lookupA s.nodes node_id with
      | none => none
      | some node => do
        let p ←
          if node.is_leaf then do
            let result ← node.node.evaluate event
            let results2 ← results.set_result node_id result
            pure (result, results2, matchList)
          else
            evaluate_node s event fuel1 node_id node results matchList
        pure (p.1, p.2.1, add_matches p.1 node p.2.2)
termination_by (fuel, 0, 0)

end

/-- One pop of the level walk of `ATree::search` from `atree.rs`: pop a
node id off the queue of the current level; skip it when already
evaluated; otherwise evaluate it, emit matches, and (unless it is a root)
propagate to its parents exactly as the predicate sweep does, except that
already-evaluated parents are not re-enqueued.  Fuelled: the Rust `while`
loop terminates because every pop either skips or marks a node evaluated,
and each node is evaluated at most once. -/
def run_level {T : Type} (s : ATree T) (event : Event) :
    Nat → Nat → List T × EvaluationResult × SearchQueues →
    Option (List T × EvaluationResult × SearchQueues)
  | 0, _, _ => none
  | fuel + 1, level, (matchList, results, queues) => do
    match queues.get? level with
    | none => none
    | some [] => pure (matchList, results, queues)
    | some (node_id :: restQueue) => do
      let queues := queues.set level restQueue
      match lookupA s.nodes node_id with
      | none => none
      | some node => do
        let is_evaluated ← results.is_evaluated node_id
        if is_evaluated then
          run_level s event fuel level (matchList, results, queues)
        else do
          let p ← evaluate_node s event (s.nodes.length + 1) node_id node results matchList
          let result := p.1
          let results := p.2.1
          let matchList := add_matches result node p.2.2
          if node.is_root then
            run_level s event fuel level (matchList, results, queues)
          else do
            let parents ← node.node.parentsO
            let step := fun (st : Option (EvaluationResult × SearchQueues)) parent_id => do
              let (results, queues) ← st
              propagate_to_parent s true result parent_id results queues
            let (results, queues) ← parents.foldl step (some (results, queues))
            run_level s event fuel level (matchList, results, queues)

/-- The `for level in 0..queues.len()` loop of `ATree::search`. -/
def run_levels {T : Type} (s : ATree T) (event : Event) :
    Nat → Nat → List T × EvaluationResult × SearchQueues →
    Option (List T × EvaluationResult × SearchQueues)
  | 0, _, acc => pure acc
  | remaining + 1, level, acc => do
    let totalQueues := (acc.2.2).length
    let acc ← run_level s event (totalQueues * (s.nodes.length + 2) * (s.nodes.length + 2) + s.nodes.length + 2) level acc
    run_levels s event remaining (level + 1) acc

/-- `ATree::search` from `atree.rs`: fresh bit set sized to the arena, one
queue per non-leaf level, the predicate sweep, then the bottom-up level
walk; returns the match list (`Report::matches`).  `none` is a Rust panic
anywhere in the search.  The fuel handed to each level's `while` loop is a
crude upper bound on the total number of queue operations: each node is
evaluated at most once and enqueues each of its parents at most once per
evaluation of one of its children. -/
def ATree.search {T : Type} (s : ATree T) (event : Event) : Option (List T) := do
  let results := EvaluationResult.new s.nodes.length
  let queues : SearchQueues := List.replicate (s.maxLevel - 1) []
  let p ← process_predicates s event results queues
  let q ← run_levels s event p.2.2.length 0 p
  pure q.1

/-! # Event building (`events.rs`, `strings.rs`) -/

/-- `AttributeKind` from `events.rs`. -/
inductive AttributeKind where
  | Boolean
  | Integer
  | Float
  | String
  | IntegerList
  | StringList
deriving DecidableEq, Repr

/-- The relevant cases of `EventError` from `events.rs`. -/
inductive EventError where
  | NonExistingAttribute (name : String)
  | WrongType (name : String) (expected actual : AttributeKind)
deriving DecidableEq, Repr

/-- The attribute table from `events.rs`, as the list of (name, kind)
definitions in declaration order; ids are positions.  (The Rust struct
keeps a `HashMap` of names to ids next to a `Vec` of kinds; both are
derived views of this list.) -/
abbrev AttributeTableM := List (String × AttributeKind)

/-- `AttributeTable::by_name` from `events.rs`. -/
def by_name (attributes : AttributeTableM) (name : String) : Option Nat :=
  attributes.findIdx? fun p => p.1 = name

/-- `AttributeTable::by_id` from `events.rs` (total: construction
guarantees ids returned by `by_name` are in range). -/
def by_id (attributes : AttributeTableM) (id : Nat) : AttributeKind :=
  ((attributes.get? id).map Prod.snd).getD .Boolean

/-- The string table from `strings.rs`: interned strings with their ids. -/
abbrev StringTableM := List (String × StringId)

/-- `StringTable::get` from `strings.rs`: the interned id, or the sentinel
id 0 for strings never interned. -/
def StringTable.get (strings : StringTableM) (value : String) : StringId :=
  match lookupA strings value with
  | some id => id
  | none => 0

/-- `Decimal::new(number, scale)` from `rust_decimal`:
`number / 10 ^ scale` as an exact rational. -/
def decimalNew (number : Int) (scale : Nat) : Rat :=
  (number : Rat) / ((10 : Rat) ^ scale)

/-- `EventBuilder` from `events.rs`: the partial value vector plus the
referenced tables. -/
structure EventBuilder where
  by_ids : List AttributeValue
  attributes : AttributeTableM
  strings : StringTableM
deriving DecidableEq, Repr

/-- `EventBuilder::new` from `events.rs` (and `ATree::make_event`): every
slot starts `Undefined`. -/
def EventBuilder.new (attributes : AttributeTableM) (strings : StringTableM) :
    EventBuilder :=
  { attributes := attributes
    strings := strings
    by_ids := List.replicate attributes.length .Undefined }

/-- `EventBuilder::build` from `events.rs`: always `Ok`. -/
def EventBuilder.build (b : EventBuilder) : Except EventError Event :=
  .ok b.by_ids

/-- `EventBuilder::add_value` from `events.rs`: resolve the name, check the
declared kind, then store the value. -/
def EventBuilder.add_value (b : EventBuilder) (name : String) (actual : AttributeKind)
    (f : Unit → AttributeValue) : Except EventError EventBuilder :=
  match by_name b.attributes name with
  | none => .error (.NonExistingAttribute name)
  | some index =>
    let expected := by_id b.attributes index
    if expected ≠ actual then .error (.WrongType name expected actual)
    else .ok { b with by_ids := b.by_ids.set index (f ()) }

/-- The builder setters of `events.rs` as a command type: one constructor
per `with_*` method. -/
inductive BuilderOp where
  | withBoolean (name : String) (value : Bool)
  | withInteger (name : String) (value : Int)
  | withFloat (name : String) (number : Int) (scale : Nat)
  | withString (name : String) (value : String)
  | withIntegerList (name : String) (value : List Int)
  | withStringList (name : String) (value : List String)
  | withUndefined (name : String)
deriving DecidableEq, Repr

/-- The attribute name an operation refers to. -/
def BuilderOp.name : BuilderOp → String
  | .withBoolean n _ => n
  | .withInteger n _ => n
  | .withFloat n _ _ => n
  | .withString n _ => n
  | .withIntegerList n _ => n
  | .withStringList n _ => n
  | .withUndefined n => n

/-- The `with_*` methods of `EventBuilder` from `events.rs`.  List setters
sort and deduplicate (`sorted().unique()`); `with_string` and
`with_string_list` intern through the read-only `StringTable::get`;
`with_undefined` resets the slot after checking the name. -/
def EventBuilder.applyOp (b : EventBuilder) (op : BuilderOp) :
    Except EventError EventBuilder :=
  match op with
  | .withBoolean name value =>
    b.add_value name .Boolean fun _ => .Boolean value
  | .withInteger name value =>
    b.add_value name .Integer fun _ => .Integer value
  | .withFloat name number scale =>
    b.add_value name .Float fun _ => .Float (decimalNew number scale)
  | .withString name value =>
    b.add_value name .String fun _ => .String (StringTable.get b.strings value)
  | .withIntegerList name value =>
    b.add_value name .IntegerList fun _ =>
      .IntegerList ((value.mergeSort (fun a c => a ≤ c)).dedup)
  | .withStringList name values =>
    b.add_value name .StringList fun _ =>
      .StringList (((values.map (StringTable.get b.strings)).mergeSort (fun a c => a ≤ c)).dedup)
  | .withUndefined name =>
    match by_name b.attributes name with
    | none => .error (.NonExistingAttribute name)
    | some index => .ok { b with by_ids := b.by_ids.set index .Undefined }

/-- A sequence of builder operations, each of which must succeed. -/
def EventBuilder.runOps (b : EventBuilder) : List BuilderOp → Except EventError EventBuilder
  | [] => .ok b
  | op :: rest =>
    match b.applyOp op with
    | .ok b1 => b1.runOps rest
    | .error e => .error e

/-! # Lemmas about predicate evaluation -/

/-- Complementing a strict comparison by flipping the operator. -/
theorem not_decide_lt {α : Type} [LinearOrder α] (a b : α) :
    (!decide (a < b)) = decide (b ≤ a) := by
  rcases lt_or_le a b with h | h
  · simp [h, not_le.mpr h]
  · simp [h, not_lt.mpr h]

/-- Complementing a non-strict comparison by flipping the operator. -/
theorem not_decide_le {α : Type} [LinearOrder α] (a b : α) :
    (!decide (a ≤ b)) = decide (b < a) := by
  rcases le_or_lt a b with h | h
  · simp [h, not_lt.mpr h]
  · simp [h, not_le.mpr h]

/-- Structural negation of a predicate is its pointwise semantic
complement, panic for panic, `None` for `None`, `Some(!b)` for `Some(b)`. -/
theorem pred_not_evaluate (p : Predicate) (e : Event) :
    (p.not).evaluate e = (p.evaluate e).map (Option.map Bool.not) := by
  obtain ⟨a, k⟩ := p
  simp only [Predicate.not, Predicate.evaluate]
  cases hv : e.get? a with
  | none => rfl
  | some v =>
    cases k with
    | Variable => cases v <;> rfl
    | NegatedVariable => cases v <;> simp [PredicateKind.not]
    | Set op l =>
      cases op <;> cases l <;> cases v <;>
        simp [PredicateKind.not, SetOperator.evaluate, SetOperator.apply]
    | Comparison op cv =>
      cases op <;> cases cv <;> cases v <;>
        simp [PredicateKind.not, ComparisonOperator.evaluate, ComparisonOperator.apply,
          not_decide_lt, not_decide_le]
    | Equality op pv =>
      cases op <;> cases pv <;> cases v <;>
        simp [PredicateKind.not, EqualityOperator.evaluate, EqualityOperator.apply,
          decide_not]
    | List op l =>
      cases op <;> cases l <;> cases v <;>
        simp [PredicateKind.not, ListOperator.evaluate, ListOperator.apply,
          none_of, not_all_of]
    | Null op =>
      cases op <;> cases v <;>
        simp [PredicateKind.not, NullOperator.evaluate]

/-- De Morgan for Kleene AND over `Option Bool`. -/
theorem kleene_demorgan_and : ∀ a b : Option Bool,
    Option.map Bool.not (kleeneAnd a b) = kleeneOr (a.map Bool.not) (b.map Bool.not) := by
  decide

/-- De Morgan for Kleene OR over `Option Bool`. -/
theorem kleene_demorgan_or : ∀ a b : Option Bool,
    Option.map Bool.not (kleeneOr a b) = kleeneAnd (a.map Bool.not) (b.map Bool.not) := by
  decide

/-- Double complement on a three-valued result. -/
theorem map_not_map_not : ∀ a : Option Bool,
    Option.map Bool.not (Option.map Bool.not a) = a := by
  decide

/-- `Node.evaluate` on a `Not` node as a map. -/
theorem node_evaluate_not (x : Node) (e : Event) :
    Node.evaluate (.Not x) e = (x.evaluate e).map (Option.map Bool.not) := by
  cases h : x.evaluate e <;> simp [Node.evaluate, h]

/-- Correctness of the zero-suppression walk: with the `negate` flag down,
the rewritten tree evaluates to the (three-valued) complement of the
original; with the flag up it evaluates identically. -/
theorem zero_suppression_filter_evaluate (t : Node) (e : Event) : ∀ negate : Bool,
    (t.zero_suppression_filter negate).evaluate e =
      if negate then (t.evaluate e).map (Option.map Bool.not) else t.evaluate e := by
  induction t with
  | And l r ihl ihr =>
    intro negate
    cases negate with
    | false =>
      simp only [Node.zero_suppression_filter, OptimizedNode.evaluate, Node.evaluate,
        ihl, ihr, if_neg, Bool.false_eq_true, ite_false]
    | true =>
      simp only [Node.zero_suppression_filter, OptimizedNode.evaluate, Node.evaluate,
        ihl, ihr, ite_true]
      cases hl : l.evaluate e <;> cases hr : r.evaluate e <;>
        simp [kleene_demorgan_and]
  | Or l r ihl ihr =>
    intro negate
    cases negate with
    | false =>
      simp only [Node.zero_suppression_filter, OptimizedNode.evaluate, Node.evaluate,
        ihl, ihr, Bool.false_eq_true, ite_false]
    | true =>
      simp only [Node.zero_suppression_filter, OptimizedNode.evaluate, Node.evaluate,
        ihl, ihr, ite_true]
      cases hl : l.evaluate e <;> cases hr : r.evaluate e <;>
        simp [kleene_demorgan_or]
  | Not x ih =>
    intro negate
    cases negate with
    | false =>
      simp only [Node.zero_suppression_filter, ih, node_evaluate_not, Bool.false_eq_true,
        ite_false, ite_true]
    | true =>
      simp only [Node.zero_suppression_filter, ih, node_evaluate_not, Bool.false_eq_true,
        ite_false, ite_true]
      cases h : x.evaluate e with
      | none => simp
      | some a => cases a with
        | none => simp
        | some b => simp
  | Value p =>
    intro negate
    cases negate with
    | false => rfl
    | true =>
      simp only [Node.zero_suppression_filter, OptimizedNode.evaluate, Node.evaluate,
        ite_true]
      exact pred_not_evaluate p e

/-! # Lemmas about the arena and the engine invariants -/

/-- Lookup after a pointwise update. -/
theorem lookupA_updateA {α β : Type} [DecidableEq α] (m : List (α × β)) (k k2 : α)
    (f : β → β) :
    lookupA (updateA m k f) k2 =
      if k2 = k then (lookupA m k2).map f else lookupA m k2 := by
  induction m with
  | nil => by_cases h : k2 = k <;> simp [lookupA, updateA, h]
  | cons p rest ih =>
    obtain ⟨pk, pv⟩ := p
    simp only [updateA, List.map_cons] at ih ⊢
    by_cases h1 : pk = k
    · simp only [if_pos h1]
      by_cases h2 : pk = k2
      · have hk : k2 = k := h2 ▸ h1
        simp [lookupA, h2, hk]
      · simp only [lookupA, if_neg h2, ih]
    · simp only [if_neg h1]
      by_cases h2 : pk = k2
      · have hk2 : ¬ (k2 = k) := fun hx => h1 (h2.trans hx)
        simp [lookupA, h2, hk2]
      · simp only [lookupA, if_neg h2, ih]

/-- Lookup after a key removal. -/
theorem lookupA_removeA {α β : Type} [DecidableEq α] (m : List (α × β)) (k k2 : α) :
    lookupA (removeA m k) k2 = if k2 = k then none else lookupA m k2 := by
  induction m with
  | nil => by_cases h : k2 = k <;> simp [lookupA, removeA, h]
  | cons p rest ih =>
    obtain ⟨pk, pv⟩ := p
    simp only [removeA, List.filter_cons] at ih ⊢
    by_cases h1 : pk = k
    · simp only [h1, ne_eq, not_true_eq_false, decide_False, Bool.false_eq_true, if_false]
      rw [ih]
      by_cases h2 : k2 = k
      · simp [h2]
      · have hk : ¬ k = k2 := fun hx => h2 hx.symm
        simp [lookupA, h2, hk]
    · simp only [ne_eq, h1, not_false_eq_true, decide_True, if_true]
      by_cases h2 : pk = k2
      · have hk2 : ¬ k2 = k := fun hx => h1 (h2.trans hx)
        simp [lookupA, h2, hk2]
      · simp only [lookupA, if_neg h2, ih]

/-- Lookup after a map insertion. -/
theorem lookupA_insertA {α β : Type} [DecidableEq α] (m : List (α × β)) (k k2 : α) (v : β) :
    lookupA (insertA m k v) k2 = if k2 = k then some v else lookupA m k2 := by
  by_cases h : k2 = k
  · subst h; simp [insertA, lookupA]
  · have hne : k ≠ k2 := fun hx => h hx.symm
    simp [insertA, lookupA, hne, lookupA_removeA, h]

/-- Lookup after prepending a pair. -/
theorem lookupA_cons {α β : Type} [DecidableEq α] (m : List (α × β)) (k k2 : α) (v : β) :
    lookupA ((k, v) :: m) k2 = if k = k2 then some v else lookupA m k2 := rfl

/-- The well-formedness invariant of an engine state tying the arena, the
fresh-key counter and the expression map together: every live key and
every child index is below the counter, and every expression-map entry
points at a live node carrying that expression id. -/
def WF {T : Type} (s : ATree T) : Prop :=
  (∀ k e, lookupA s.nodes k = some e → k < s.nextId) ∧
  (∀ x v, lookupA s.expressionToNode x = some v →
    ∃ e, lookupA s.nodes v = some e ∧ e.id = x ∧ v < s.nextId) ∧
  (∀ k e, lookupA s.nodes k = some e → ∀ cs, e.node.childrenO = some cs →
    ∀ c ∈ cs, c < s.nextId)

/-- Cost-ordered children: whenever both children of a stored non-leaf
node are read back from the arena, the first child's entry cost is at most
the second's. -/
def orderedNodes {T : Type} (nodes : List (Nat × Entry T)) : Prop :=
  ∀ nid e c0 c1 e0 e1, lookupA nodes nid = some e →
    e.node.childrenO = some [c0, c1] →
    lookupA nodes c0 = some e0 → lookupA nodes c1 = some e1 →
    e0.cost ≤ e1.cost

/-- An entry transformation that changes neither the expression id, nor
the cost, nor the children list (it may touch parents, subscriptions, the
use count, and the R/I tag). -/
def benign {T : Type} (f : Entry T → Entry T) : Prop :=
  ∀ e, (f e).id = e.id ∧ (f e).cost = e.cost ∧ (f e).node.childrenO = e.node.childrenO

/-- The use-count bump is benign. -/
theorem benign_inc {T : Type} :
    benign (fun e : Entry T => { e with use_count := e.use_count + 1 }) := by
  intro e; exact ⟨rfl, rfl, rfl⟩

/-- Attaching a subscription id is benign. -/
theorem benign_subs {T : Type} (sub : T) :
    benign (fun e : Entry T => { e with subscription_ids := e.subscription_ids ++ [sub] }) := by
  intro e; exact ⟨rfl, rfl, rfl⟩

/-- Adding a parent edge is benign. -/
theorem benign_add_parent {T : Type} (pid : Nat) :
    benign (fun e : Entry T => { e with node := e.node.add_parent pid }) := by
  intro e
  refine ⟨rfl, rfl, ?_⟩
  cases h : e.node <;> simp [ATreeNode.add_parent, ATreeNode.childrenO, h]

/-- The R-node to I-node demotion is benign (children survive). -/
theorem benign_demote {T : Type} :
    benign (fun e : Entry T =>
      match e.node with
      | .RNode r =>
        { e with node := .INode { parents := [], children := r.children, level := r.level, operator := r.operator } }
      | _ => e) := by
  intro e
  cases h : e.node <;> simp [ATreeNode.childrenO, h]

/-- Pointwise version of `benign`: the update is benign at least on the
entry the key actually holds. -/
def benignAt {T : Type} (nodes : List (Nat × Entry T)) (k : Nat)
    (f : Entry T → Entry T) : Prop :=
  ∀ a, lookupA nodes k = some a →
    (f a).id = a.id ∧ (f a).cost = a.cost ∧ (f a).node.childrenO = a.node.childrenO

/-- A benign update is benign at every key. -/
theorem benign_benignAt {T : Type} {nodes : List (Nat × Entry T)} {k : Nat}
    {f : Entry T → Entry T} (hf : benign f) : benignAt nodes k f :=
  fun a _ => hf a

/-- Reading back through a benign update: the entry found afterwards
agrees with an entry found before on id, cost and children. -/
theorem lookup_after_benign {T : Type} {nodes : List (Nat × Entry T)} {k i : Nat}
    {f : Entry T → Entry T} (hf : benignAt nodes k f) {e1 : Entry T}
    (h : lookupA (updateA nodes k f) i = some e1) :
    ∃ e, lookupA nodes i = some e ∧ e1.id = e.id ∧ e1.cost = e.cost ∧
      e1.node.childrenO = e.node.childrenO := by
  rw [lookupA_updateA] at h
  by_cases hi : i = k
  · rw [if_pos hi] at h
    obtain ⟨a, ha, hfa⟩ := Option.map_eq_some'.mp h
    subst hi
    obtain ⟨h1, h2, h3⟩ := hf a ha
    refine ⟨a, ha, ?_, ?_, ?_⟩ <;> rw [← hfa]
    · exact h1
    · exact h2
    · exact h3
  · rw [if_neg hi] at h
    exact ⟨e1, h, rfl, rfl, rfl⟩

/-- Reading forward through a benign update: an entry present before is
present afterwards with the same id, cost and children. -/
theorem lookup_fwd_benign {T : Type} {nodes : List (Nat × Entry T)} {k i : Nat}
    {f : Entry T → Entry T} (hf : benignAt nodes k f) {e : Entry T}
    (h : lookupA nodes i = some e) :
    ∃ e1, lookupA (updateA nodes k f) i = some e1 ∧ e1.id = e.id ∧ e1.cost = e.cost ∧
      e1.node.childrenO = e.node.childrenO := by
  rw [lookupA_updateA]
  by_cases hi : i = k
  · rw [if_pos hi, h]
    subst hi
    obtain ⟨h1, h2, h3⟩ := hf e h
    exact ⟨f e, rfl, h1, h2, h3⟩
  · rw [if_neg hi]
    exact ⟨e, h, rfl, rfl, rfl⟩

/-- A pointwise-benign update preserves cost-ordering of children. -/
theorem orderedNodes_updateA {T : Type} {nodes : List (Nat × Entry T)} {k : Nat}
    {f : Entry T → Entry T} (hf : benignAt nodes k f) (h : orderedNodes nodes) :
    orderedNodes (updateA nodes k f) := by
  intro nid e c0 c1 e0 e1 h1 h2 h3 h4
  obtain ⟨a, ha, _, _, hac⟩ := lookup_after_benign hf h1
  obtain ⟨a0, ha0, _, hc0, _⟩ := lookup_after_benign hf h3
  obtain ⟨a1, ha1, _, hc1, _⟩ := lookup_after_benign hf h4
  rw [hc0, hc1]
  exact h nid a c0 c1 a0 a1 ha (by rw [← hac, h2]) ha0 ha1

/-- Removal preserves cost-ordering of children. -/
theorem orderedNodes_removeA {T : Type} {nodes : List (Nat × Entry T)} {k : Nat}
    (h : orderedNodes nodes) : orderedNodes (removeA nodes k) := by
  intro nid e c0 c1 e0 e1 h1 h2 h3 h4
  rw [lookupA_removeA] at h1 h3 h4
  by_cases hn : nid = k
  · rw [if_pos hn] at h1; exact absurd h1 (by simp)
  · rw [if_neg hn] at h1
    by_cases h0 : c0 = k
    · rw [if_pos h0] at h3; exact absurd h3 (by simp)
    · rw [if_neg h0] at h3
      by_cases hc1 : c1 = k
      · rw [if_pos hc1] at h4; exact absurd h4 (by simp)
      · rw [if_neg hc1] at h4
        exact h nid e c0 c1 e0 e1 h1 h2 h3 h4

/-- A pointwise-benign update of the arena preserves well-formedness. -/
theorem WF_update_nodes {T : Type} (s : ATree T) (k : Nat) (f : Entry T → Entry T)
    (hf : benignAt s.nodes k f) (h : WF s) :
    WF { s with nodes := updateA s.nodes k f } := by
  obtain ⟨h1, h2, h3⟩ := h
  refine ⟨?_, ?_, ?_⟩
  · intro k2 e he
    obtain ⟨a, ha, _, _, _⟩ := lookup_after_benign hf he
    exact h1 k2 a ha
  · intro x v hv
    obtain ⟨e, he, hid, hvlt⟩ := h2 x v hv
    obtain ⟨e2, he2, hid2, _, _⟩ := lookup_fwd_benign hf he
    exact ⟨e2, he2, by rw [hid2, hid], hvlt⟩
  · intro k2 e he cs hcs c hc
    obtain ⟨a, ha, _, _, hch⟩ := lookup_after_benign hf he
    exact h3 k2 a ha cs (by rw [← hch, hcs]) c hc

/-- State evolution during insertion: the fresh-key counter does not
shrink, and every entry stays visible with its id, cost and children. -/
def evolves {T : Type} (s s1 : ATree T) : Prop :=
  s.nextId ≤ s1.nextId ∧
  ∀ k e, lookupA s.nodes k = some e →
    ∃ e2, lookupA s1.nodes k = some e2 ∧ e2.id = e.id ∧ e2.cost = e.cost ∧
      e2.node.childrenO = e.node.childrenO

/-- `evolves` is reflexive. -/
theorem evolves_refl {T : Type} (s : ATree T) : evolves s s :=
  ⟨le_refl _, fun _ e he => ⟨e, he, rfl, rfl, rfl⟩⟩

/-- `evolves` is transitive. -/
theorem evolves_trans {T : Type} {s s1 s2 : ATree T} (h1 : evolves s s1)
    (h2 : evolves s1 s2) : evolves s s2 := by
  refine ⟨le_trans h1.1 h2.1, ?_⟩
  intro k e he
  obtain ⟨ea, hea, i1, c1, ch1⟩ := h1.2 k e he
  obtain ⟨eb, heb, i2, c2, ch2⟩ := h2.2 k ea hea
  exact ⟨eb, heb, by rw [i2, i1], by rw [c2, c1], by rw [ch2, ch1]⟩

/-- The contract of one insertion step starting from state `s`: the result
state is well formed with cost-ordered children, it evolves from `s`, and
the returned node id is live. -/
def insOk {T : Type} (s : ATree T) (p : ATree T × Nat) : Prop :=
  WF p.1 ∧ orderedNodes p.1.nodes ∧ evolves s p.1 ∧ p.2 < p.1.nextId ∧
  ∃ e, lookupA p.1.nodes p.2 = some e

/-- Allocating a fresh entry keeps the invariants, provided the new node's
children (if any) are live keys with cost-ordered entries. -/
theorem insert_entry_inv {T : Type} (s : ATree T) (x : Nat) (node : ATreeNode)
    (sub : Option T) (cost : Nat) (hWF : WF s) (hOrd : orderedNodes s.nodes)
    (hch : ∀ cs, node.childrenO = some cs →
      (∀ c ∈ cs, c < s.nextId) ∧
      (∀ c0 c1, cs = [c0, c1] → ∀ e0 e1, lookupA s.nodes c0 = some e0 →
        lookupA s.nodes c1 = some e1 → e0.cost ≤ e1.cost)) :
    insOk s (insert_entry s x node sub cost) := by
  obtain ⟨h1, h2, h3⟩ := hWF
  have heq : insert_entry s x node sub cost =
      ({ s with
          nodes := (s.nextId, Entry.new x node sub cost) :: s.nodes
          nextId := s.nextId + 1
          expressionToNode := insertA s.expressionToNode x s.nextId }, s.nextId) := rfl
  rw [heq]
  refine ⟨⟨?_, ?_, ?_⟩, ?_, ⟨?_, ?_⟩, ?_, ?_⟩ <;> dsimp only
  · -- keys below the bumped counter
    intro k e he
    rw [lookupA_cons] at he
    by_cases hk : s.nextId = k
    · omega
    · rw [if_neg hk] at he
      have := h1 k e he
      omega
  · -- expression map points at live nodes
    intro y v hv
    rw [lookupA_insertA] at hv
    by_cases hy : y = x
    · rw [if_pos hy] at hv
      injection hv with hv
      subst hv
      refine ⟨Entry.new x node sub cost, ?_, by rw [hy]; rfl, by omega⟩
      rw [lookupA_cons, if_pos rfl]
    · rw [if_neg hy] at hv
      obtain ⟨e, he, hid, hlt⟩ := h2 y v hv
      have hvne : s.nextId ≠ v := by omega
      refine ⟨e, ?_, hid, by omega⟩
      rw [lookupA_cons, if_neg hvne]
      exact he
  · -- children below the bumped counter
    intro k e he cs hcs c hc
    rw [lookupA_cons] at he
    by_cases hk : s.nextId = k
    · rw [if_pos hk] at he
      injection he with he
      subst he
      have := (hch cs hcs).1 c hc
      omega
    · rw [if_neg hk] at he
      have := h3 k e he cs hcs c hc
      omega
  · -- ordered children
    intro nid e c0 c1 e0 e1 hn hcs hc0 hc1
    rw [lookupA_cons] at hn hc0 hc1
    by_cases hk : s.nextId = nid
    · rw [if_pos hk] at hn
      injection hn with hn
      subst hn
      have hb := (hch [c0, c1] hcs).1
      have hb0 : s.nextId ≠ c0 := by have := hb c0 (by simp); omega
      have hb1 : s.nextId ≠ c1 := by have := hb c1 (by simp); omega
      rw [if_neg hb0] at hc0
      rw [if_neg hb1] at hc1
      exact (hch [c0, c1] hcs).2 c0 c1 rfl e0 e1 hc0 hc1
    · rw [if_neg hk] at hn
      have hb := h3 nid e hn
      have hb0 : s.nextId ≠ c0 := by
        have := hb [c0, c1] hcs c0 (by simp); omega
      have hb1 : s.nextId ≠ c1 := by
        have := hb [c0, c1] hcs c1 (by simp); omega
      rw [if_neg hb0] at hc0
      rw [if_neg hb1] at hc1
      exact hOrd nid e c0 c1 e0 e1 hn hcs hc0 hc1
  · -- counter monotone
    omega
  · -- old entries survive untouched
    intro k e he
    have hk : s.nextId ≠ k := by have := h1 k e he; omega
    refine ⟨e, ?_, rfl, rfl, rfl⟩
    rw [lookupA_cons, if_neg hk]
    exact he
  · -- the returned id is below the bumped counter
    omega
  · -- the returned id is live
    refine ⟨Entry.new x node sub cost, ?_⟩
    rw [lookupA_cons, if_pos rfl]

/-- Transporting the insertion contract through a pointwise-benign arena
update (the edge-wiring steps), regardless of what happens to the root and
entry sets. -/
theorem insOk_update {T : Type} {s s1 : ATree T} {i k : Nat} {f : Entry T → Entry T}
    (h : insOk s (s1, i)) (hf : benignAt s1.nodes k f) (s2 : ATree T)
    (hn : s2.nodes = updateA s1.nodes k f)
    (hx : s2.expressionToNode = s1.expressionToNode)
    (hid : s2.nextId = s1.nextId) :
    insOk s (s2, i) := by
  obtain ⟨hWF, hOrd, hev, hlt, e, he⟩ := h
  refine ⟨?_, ?_, ⟨?_, ?_⟩, ?_, ?_⟩
  · show WF s2
    have := WF_update_nodes s1 k f hf hWF
    simp only [WF, hn, hx, hid]
    exact this
  · show orderedNodes s2.nodes
    rw [hn]
    exact orderedNodes_updateA hf hOrd
  · simp only [hid]
    exact hev.1
  · intro k2 e2 he2
    obtain ⟨ea, hea, i1, c1, ch1⟩ := hev.2 k2 e2 he2
    obtain ⟨eb, heb, i2, c2, ch2⟩ := lookup_fwd_benign hf hea
    refine ⟨eb, ?_, by rw [i2, i1], by rw [c2, c1], by rw [ch2, ch1]⟩
    rw [hn]
    exact heb
  · simp only [hid]
    exact hlt
  · obtain ⟨e2, he2, _, _, _⟩ := lookup_fwd_benign hf he
    refine ⟨e2, ?_⟩
    rw [hn]
    exact he2

/-- The expression-id-hit branch shared by `ATree::insert_node` and (up to
the subscription bookkeeping) `ATree::insert_root`: demote and bump the
found node. -/
theorem insOk_hit {T : Type} (s : ATree T) (x node_id : Nat)
    (hl : lookupA s.expressionToNode x = some node_id)
    (hWF : WF s) (hOrd : orderedNodes s.nodes) :
    insOk s
      ({ s with nodes := increment_use_count node_id (change_rnode_to_inode node_id s.nodes) },
        node_id) := by
  obtain ⟨e, he, hid, hlt⟩ := hWF.2.1 x node_id hl
  have h0 : insOk s (s, node_id) :=
    ⟨hWF, hOrd, evolves_refl s, hlt, e, he⟩
  have h1 : insOk s ({ s with nodes := change_rnode_to_inode node_id s.nodes }, node_id) :=
    insOk_update h0 (benign_benignAt benign_demote) _ rfl rfl rfl
  exact insOk_update h1 (benign_benignAt benign_inc) _ rfl rfl rfl

/-- The fresh-composite tail `wire_composite` keeps the insertion
contract, under the same children conditions as `insert_entry_inv`. -/
theorem wire_composite_inv {T : Type} (s2 : ATree T) (x : Nat) (is_and : Bool)
    (node : ATreeNode) (sub : Option T) (cost : Nat) (lid rid : Nat)
    (hWF : WF s2) (hOrd : orderedNodes s2.nodes)
    (hch : ∀ cs, node.childrenO = some cs →
      (∀ c ∈ cs, c < s2.nextId) ∧
      (∀ c0 c1, cs = [c0, c1] → ∀ e0 e1, lookupA s2.nodes c0 = some e0 →
        lookupA s2.nodes c1 = some e1 → e0.cost ≤ e1.cost)) :
    insOk s2 (wire_composite s2 x is_and node sub cost lid rid) := by
  have h3 := insert_entry_inv s2 x node sub cost hWF hOrd hch
  by_cases ha : is_and = true
  · have heq : wire_composite s2 x is_and node sub cost lid rid =
        (choose_access_child lid rid (insert_entry s2 x node sub cost).2
          (insert_entry s2 x node sub cost).1,
          (insert_entry s2 x node sub cost).2) := by
      simp [wire_composite, ha]
    rw [heq]
    rcases hp3 : insert_entry s2 x node sub cost with ⟨s3, n3⟩
    rw [hp3] at h3
    exact insOk_update h3 (benign_benignAt (benign_add_parent n3)) _ rfl rfl rfl
  · have heq : wire_composite s2 x is_and node sub cost lid rid =
        (let p3 := insert_entry s2 x node sub cost
         let nodes := add_parent (add_parent p3.1.nodes lid p3.2) rid p3.2
         let predicates := add_predicate rid nodes (add_predicate lid nodes p3.1.predicates)
         ({ p3.1 with nodes := nodes, predicates := predicates }, p3.2)) := by
      simp [wire_composite, ha]
    rw [heq]
    rcases hp3 : insert_entry s2 x node sub cost with ⟨s3, n3⟩
    rw [hp3] at h3
    have h4 : insOk s2 ({ s3 with nodes := add_parent s3.nodes lid n3 }, n3) :=
      insOk_update h3 (benign_benignAt (benign_add_parent n3)) _ rfl rfl rfl
    exact insOk_update h4 (benign_benignAt (benign_add_parent n3)) _ rfl rfl rfl

/-- The insertion contract composes with prior evolution. -/
theorem insOk_mono {T : Type} {s s1 : ATree T} {p : ATree T × Nat}
    (hev : evolves s s1) (h : insOk s1 p) : insOk s p :=
  ⟨h.1, h.2.1, evolves_trans hev h.2.2.1, h.2.2.2⟩

/-- Definitional unfolding of `ATree.insert_node` on a leaf. -/
theorem insert_node_value_eq {T : Type} (s : ATree T) (p : Predicate) :
    s.insert_node (.Value p) =
      match lookupA s.expressionToNode (OptimizedNode.Value p).exprId with
      | some node_id =>
        ({ s with nodes := increment_use_count node_id (change_rnode_to_inode node_id s.nodes) },
          node_id)
      | none =>
        insert_entry s (OptimizedNode.Value p).exprId (ATreeNode.lnode p) none
          (OptimizedNode.Value p).cost := rfl

/-- Definitional unfolding of `ATree.insert_node` on an AND node. -/
theorem insert_node_and_eq {T : Type} (s : ATree T) (l r : OptimizedNode) :
    s.insert_node (.And l r) =
      match lookupA s.expressionToNode (OptimizedNode.And l r).exprId with
      | some node_id =>
        ({ s with nodes := increment_use_count node_id (change_rnode_to_inode node_id s.nodes) },
          node_id)
      | none =>
        wire_composite ((s.insert_node l).1.insert_node r).1
          (OptimizedNode.And l r).exprId true
          (.INode
            { parents := []
              level := 1 + Nat.max
                (getEntryD ((s.insert_node l).1.insert_node r).1.nodes (s.insert_node l).2).node.level
                (getEntryD ((s.insert_node l).1.insert_node r).1.nodes ((s.insert_node l).1.insert_node r).2).node.level
              operator := .And
              children := composite_children ((s.insert_node l).1.insert_node r).1.nodes
                (s.insert_node l).2 ((s.insert_node l).1.insert_node r).2 })
          none (OptimizedNode.And l r).cost
          (s.insert_node l).2 ((s.insert_node l).1.insert_node r).2 := rfl

/-- Definitional unfolding of `ATree.insert_node` on an OR node. -/
theorem insert_node_or_eq {T : Type} (s : ATree T) (l r : OptimizedNode) :
    s.insert_node (.Or l r) =
      match lookupA s.expressionToNode (OptimizedNode.Or l r).exprId with
      | some node_id =>
        ({ s with nodes := increment_use_count node_id (change_rnode_to_inode node_id s.nodes) },
          node_id)
      | none =>
        wire_composite ((s.insert_node l).1.insert_node r).1
          (OptimizedNode.Or l r).exprId false
          (.INode
            { parents := []
              level := 1 + Nat.max
                (getEntryD ((s.insert_node l).1.insert_node r).1.nodes (s.insert_node l).2).node.level
                (getEntryD ((s.insert_node l).1.insert_node r).1.nodes ((s.insert_node l).1.insert_node r).2).node.level
              operator := .Or
              children := composite_children ((s.insert_node l).1.insert_node r).1.nodes
                (s.insert_node l).2 ((s.insert_node l).1.insert_node r).2 })
          none (OptimizedNode.Or l r).cost
          (s.insert_node l).2 ((s.insert_node l).1.insert_node r).2 := rfl

/-- After inserting the two children of a fresh composite node, the
children vector chosen by `composite_children` consists of live keys whose
entries are cost-ordered. -/
theorem composite_hch {T : Type} {s s1 s2 : ATree T} {lid rid : Nat}
    (h1 : insOk s (s1, lid)) (h2 : insOk s1 (s2, rid)) :
    (∀ c ∈ composite_children s2.nodes lid rid, c < s2.nextId) ∧
    (∀ c0 c1, composite_children s2.nodes lid rid = [c0, c1] →
      ∀ e0 e1, lookupA s2.nodes c0 = some e0 → lookupA s2.nodes c1 = some e1 →
        e0.cost ≤ e1.cost) := by
  obtain ⟨el1, hel1⟩ := h1.2.2.2.2
  obtain ⟨el2, hel2, _, hcost, _⟩ := h2.2.2.1.2 lid el1 hel1
  obtain ⟨er2, her2⟩ := h2.2.2.2.2
  have hlidlt : lid < s2.nextId := lt_of_lt_of_le h1.2.2.2.1 h2.2.2.1.1
  have hridlt : rid < s2.nextId := h2.2.2.2.1
  have hgl : getEntryD s2.nodes lid = el2 := by simp [getEntryD, hel2]
  have hgr : getEntryD s2.nodes rid = er2 := by simp [getEntryD, her2]
  constructor
  · intro c hc
    simp only [composite_children] at hc
    split at hc <;> simp at hc <;> rcases hc with rfl | rfl <;> assumption
  · intro c0 c1 hcc e0 e1 he0 he1
    simp only [composite_children, hgl, hgr] at hcc
    split at hcc
    · rename_i hgt
      injection hcc with hc0 hcc
      injection hcc with hc1 _
      subst hc0; subst hc1
      rw [her2] at he0
      rw [hel2] at he1
      injection he0 with he0
      injection he1 with he1
      subst he0; subst he1
      exact le_of_lt hgt
    · rename_i hgt
      injection hcc with hc0 hcc
      injection hcc with hc1 _
      subst hc0; subst hc1
      rw [hel2] at he0
      rw [her2] at he1
      injection he0 with he0
      injection he1 with he1
      subst he0; subst he1
      exact le_of_not_lt hgt

/-- `ATree::insert_node` keeps the engine invariants, evolves the state,
and returns a live node id. -/
theorem insert_node_inv {T : Type} (t : OptimizedNode) :
    ∀ (s : ATree T), WF s → orderedNodes s.nodes → insOk s (s.insert_node t) := by
  induction t with
  | Value p =>
    intro s hWF hOrd
    rw [insert_node_value_eq]
    split
    · next node_id hl => exact insOk_hit s _ node_id hl hWF hOrd
    · next hl =>
      apply insert_entry_inv s _ _ none _ hWF hOrd
      intro cs hcs
      simp [ATreeNode.lnode, ATreeNode.childrenO] at hcs
  | And l r ihl ihr =>
    intro s hWF hOrd
    rw [insert_node_and_eq]
    split
    · next node_id hl => exact insOk_hit s _ node_id hl hWF hOrd
    · next hl =>
      have h1 := ihl s hWF hOrd
      rcases hp1 : s.insert_node l with ⟨s1, lid⟩
      rw [hp1] at h1
      have h2 := ihr s1 h1.1 h1.2.1
      rcases hp2 : s1.insert_node r with ⟨s2, rid⟩
      rw [hp2] at h2
      apply insOk_mono (evolves_trans h1.2.2.1 h2.2.2.1)
      apply wire_composite_inv s2 _ _ _ none _ lid rid h2.1 h2.2.1
      intro cs hcs
      simp only [ATreeNode.childrenO] at hcs
      injection hcs with hcs
      subst hcs
      exact composite_hch h1 h2
  | Or l r ihl ihr =>
    intro s hWF hOrd
    rw [insert_node_or_eq]
    split
    · next node_id hl => exact insOk_hit s _ node_id hl hWF hOrd
    · next hl =>
      have h1 := ihl s hWF hOrd
      rcases hp1 : s.insert_node l with ⟨s1, lid⟩
      rw [hp1] at h1
      have h2 := ihr s1 h1.1 h1.2.1
      rcases hp2 : s1.insert_node r with ⟨s2, rid⟩
      rw [hp2] at h2
      apply insOk_mono (evolves_trans h1.2.2.1 h2.2.2.1)
      apply wire_composite_inv s2 _ _ _ none _ lid rid h2.1 h2.2.1
      intro cs hcs
      simp only [ATreeNode.childrenO] at hcs
      injection hcs with hcs
      subst hcs
      exact composite_hch h1 h2

/-- Definitional unfolding of `ATree.insert_root` on a leaf expression. -/
theorem insert_root_value_eq {T : Type} [DecidableEq T] (s : ATree T) (sub : T)
    (p : Predicate) :
    s.insert_root sub (.Value p) =
      match lookupA s.expressionToNode (OptimizedNode.Value p).exprId with
      | some node_id =>
        { add_subscription_id sub node_id s with
            nodes := increment_use_count node_id (add_subscription_id sub node_id s).nodes }
      | none =>
        { (insert_entry s (OptimizedNode.Value p).exprId (ATreeNode.lnode p) (some sub)
            (OptimizedNode.Value p).cost).1 with
            predicates := (insert_entry s (OptimizedNode.Value p).exprId (ATreeNode.lnode p)
              (some sub) (OptimizedNode.Value p).cost).1.predicates ++
              [(insert_entry s (OptimizedNode.Value p).exprId (ATreeNode.lnode p) (some sub)
                (OptimizedNode.Value p).cost).2]
            nodesByIds := insertA (insert_entry s (OptimizedNode.Value p).exprId
              (ATreeNode.lnode p) (some sub) (OptimizedNode.Value p).cost).1.nodesByIds sub
              (insert_entry s (OptimizedNode.Value p).exprId (ATreeNode.lnode p) (some sub)
                (OptimizedNode.Value p).cost).2
            roots := (insert_entry s (OptimizedNode.Value p).exprId (ATreeNode.lnode p)
              (some sub) (OptimizedNode.Value p).cost).1.roots ++
              [(insert_entry s (OptimizedNode.Value p).exprId (ATreeNode.lnode p) (some sub)
                (OptimizedNode.Value p).cost).2]
            maxLevel := get_max_level
              ((insert_entry s (OptimizedNode.Value p).exprId (ATreeNode.lnode p) (some sub)
                (OptimizedNode.Value p).cost).1.roots ++
                [(insert_entry s (OptimizedNode.Value p).exprId (ATreeNode.lnode p) (some sub)
                  (OptimizedNode.Value p).cost).2])
              (insert_entry s (OptimizedNode.Value p).exprId (ATreeNode.lnode p) (some sub)
                (OptimizedNode.Value p).cost).1.nodes } := rfl

/-- The root-bookkeeping tail of `ATree::insert_root` (subscription map,
root set, `max_level`) on a freshly created node. -/
def finish_root {T : Type} [DecidableEq T] (subscription_id : T) (p : ATree T × Nat) :
    ATree T :=
  { p.1 with
      nodesByIds := insertA p.1.nodesByIds subscription_id p.2
      roots := p.1.roots ++ [p.2]
      maxLevel := get_max_level (p.1.roots ++ [p.2]) p.1.nodes }

/-- Definitional unfolding of `ATree.insert_root` on an AND expression. -/
theorem insert_root_and_eq {T : Type} [DecidableEq T] (s : ATree T) (sub : T)
    (l r : OptimizedNode) :
    s.insert_root sub (.And l r) =
      match lookupA s.expressionToNode (OptimizedNode.And l r).exprId with
      | some node_id =>
        { add_subscription_id sub node_id s with
            nodes := increment_use_count node_id (add_subscription_id sub node_id s).nodes }
      | none =>
        finish_root sub
          (wire_composite ((s.insert_node l).1.insert_node r).1
            (OptimizedNode.And l r).exprId true
            (.RNode
              { level := 1 + Nat.max
                  (getEntryD ((s.insert_node l).1.insert_node r).1.nodes (s.insert_node l).2).node.level
                  (getEntryD ((s.insert_node l).1.insert_node r).1.nodes ((s.insert_node l).1.insert_node r).2).node.level
                operator := .And
                children := composite_children ((s.insert_node l).1.insert_node r).1.nodes
                  (s.insert_node l).2 ((s.insert_node l).1.insert_node r).2 })
            (some sub) (OptimizedNode.And l r).cost
            (s.insert_node l).2 ((s.insert_node l).1.insert_node r).2) := rfl

/-- Definitional unfolding of `ATree.insert_root` on an OR expression. -/
theorem insert_root_or_eq {T : Type} [DecidableEq T] (s : ATree T) (sub : T)
    (l r : OptimizedNode) :
    s.insert_root sub (.Or l r) =
      match lookupA s.expressionToNode (OptimizedNode.Or l r).exprId with
      | some node_id =>
        { add_subscription_id sub node_id s with
            nodes := increment_use_count node_id (add_subscription_id sub node_id s).nodes }
      | none =>
        finish_root sub
          (wire_composite ((s.insert_node l).1.insert_node r).1
            (OptimizedNode.Or l r).exprId false
            (.RNode
              { level := 1 + Nat.max
                  (getEntryD ((s.insert_node l).1.insert_node r).1.nodes (s.insert_node l).2).node.level
                  (getEntryD ((s.insert_node l).1.insert_node r).1.nodes ((s.insert_node l).1.insert_node r).2).node.level
                operator := .Or
                children := composite_children ((s.insert_node l).1.insert_node r).1.nodes
                  (s.insert_node l).2 ((s.insert_node l).1.insert_node r).2 })
            (some sub) (OptimizedNode.Or l r).cost
            (s.insert_node l).2 ((s.insert_node l).1.insert_node r).2) := rfl

/-- The expression-id-hit branch of `ATree::insert_root` keeps the
invariants. -/
theorem insert_root_hit_inv {T : Type} [DecidableEq T] (s : ATree T) (sub : T)
    (x node_id : Nat) (hl : lookupA s.expressionToNode x = some node_id)
    (hWF : WF s) (hOrd : orderedNodes s.nodes) :
    insOk s
      ({ add_subscription_id sub node_id s with
          nodes := increment_use_count node_id (add_subscription_id sub node_id s).nodes },
        node_id) := by
  obtain ⟨e, he, hid, hlt⟩ := hWF.2.1 x node_id hl
  have h0 : insOk s (s, node_id) := ⟨hWF, hOrd, evolves_refl s, hlt, e, he⟩
  have h1 : insOk s (add_subscription_id sub node_id s, node_id) :=
    insOk_update h0 (benign_benignAt (benign_subs sub)) _ rfl rfl rfl
  exact insOk_update h1 (benign_benignAt benign_inc) _ rfl rfl rfl

/-- `ATree::insert_root` keeps the engine invariants. -/
theorem insert_root_inv {T : Type} [DecidableEq T] (t : OptimizedNode) (sub : T)
    (s : ATree T) (hWF : WF s) (hOrd : orderedNodes s.nodes) :
    WF (s.insert_root sub t) ∧ orderedNodes (s.insert_root sub t).nodes := by
  cases t with
  | Value p =>
    rw [insert_root_value_eq]
    split
    · next node_id hl =>
      have h := insert_root_hit_inv s sub _ node_id hl hWF hOrd
      exact ⟨h.1, h.2.1⟩
    · next hl =>
      have h := insert_entry_inv s (OptimizedNode.Value p).exprId (ATreeNode.lnode p)
        (some sub) (OptimizedNode.Value p).cost hWF hOrd ?_
      · exact ⟨h.1, h.2.1⟩
      · intro cs hcs
        simp [ATreeNode.lnode, ATreeNode.childrenO] at hcs
  | And l r =>
    rw [insert_root_and_eq]
    split
    · next node_id hl =>
      have h := insert_root_hit_inv s sub _ node_id hl hWF hOrd
      exact ⟨h.1, h.2.1⟩
    · next hl =>
      have h1 := insert_node_inv l s hWF hOrd
      rcases hp1 : s.insert_node l with ⟨s1, lid⟩
      rw [hp1] at h1
      have h2 := insert_node_inv r s1 h1.1 h1.2.1
      rcases hp2 : s1.insert_node r with ⟨s2, rid⟩
      rw [hp2] at h2
      have hw := wire_composite_inv s2 (OptimizedNode.And l r).exprId true
        (.RNode
          { level := 1 + Nat.max (getEntryD s2.nodes lid).node.level
              (getEntryD s2.nodes rid).node.level
            operator := .And
            children := composite_children s2.nodes lid rid })
        (some sub) (OptimizedNode.And l r).cost lid rid h2.1 h2.2.1 ?_
      · rcases hpw : wire_composite s2 (OptimizedNode.And l r).exprId true
            (.RNode
              { level := 1 + Nat.max (getEntryD s2.nodes lid).node.level
                  (getEntryD s2.nodes rid).node.level
                operator := .And
                children := composite_children s2.nodes lid rid })
            (some sub) (OptimizedNode.And l r).cost lid rid with ⟨sw, nw⟩
        rw [hpw] at hw
        exact ⟨hw.1, hw.2.1⟩
      · intro cs hcs
        simp only [ATreeNode.childrenO] at hcs
        injection hcs with hcs
        subst hcs
        exact composite_hch h1 h2
  | Or l r =>
    rw [insert_root_or_eq]
    split
    · next node_id hl =>
      have h := insert_root_hit_inv s sub _ node_id hl hWF hOrd
      exact ⟨h.1, h.2.1⟩
    · next hl =>
      have h1 := insert_node_inv l s hWF hOrd
      rcases hp1 : s.insert_node l with ⟨s1, lid⟩
      rw [hp1] at h1
      have h2 := insert_node_inv r s1 h1.1 h1.2.1
      rcases hp2 : s1.insert_node r with ⟨s2, rid⟩
      rw [hp2] at h2
      have hw := wire_composite_inv s2 (OptimizedNode.Or l r).exprId false
        (.RNode
          { level := 1 + Nat.max (getEntryD s2.nodes lid).node.level
              (getEntryD s2.nodes rid).node.level
            operator := .Or
            children := composite_children s2.nodes lid rid })
        (some sub) (OptimizedNode.Or l r).cost lid rid h2.1 h2.2.1 ?_
      · rcases hpw : wire_composite s2 (OptimizedNode.Or l r).exprId false
            (.RNode
              { level := 1 + Nat.max (getEntryD s2.nodes lid).node.level
                  (getEntryD s2.nodes rid).node.level
                operator := .Or
                children := composite_children s2.nodes lid rid })
            (some sub) (OptimizedNode.Or l r).cost lid rid with ⟨sw, nw⟩
        rw [hpw] at hw
        exact ⟨hw.1, hw.2.1⟩
      · intro cs hcs
        simp only [ATreeNode.childrenO] at hcs
        injection hcs with hcs
        subst hcs
        exact composite_hch h1 h2

/-- `decrement_use_count` keeps the engine invariants (it only strips
subscriptions, lowers a count, or removes a node together with its
expression-map entry). -/
theorem decrement_inv {T : Type} [DecidableEq T] (sub : T) (nid : Nat) (s : ATree T)
    (hWF : WF s) (hOrd : orderedNodes s.nodes) :
    WF (decrement_use_count sub nid s).1 ∧
      orderedNodes (decrement_use_count sub nid s).1.nodes := by
  unfold decrement_use_count
  split
  · exact ⟨hWF, hOrd⟩
  · next e h =>
    have hba : benignAt s.nodes nid (fun _ => { e with
        use_count := e.use_count - 1
        subscription_ids := e.subscription_ids.filter fun x => x ≠ sub }) := by
      intro a ha
      rw [h] at ha
      injection ha with ha
      subst ha
      exact ⟨rfl, rfl, rfl⟩
    simp only []
    split
    · -- the use count reached zero: the node is unlinked and freed
      next hzero =>
      dsimp only
      obtain ⟨h1, h2, h3⟩ := hWF
      refine ⟨⟨?_, ?_, ?_⟩, ?_⟩
      · intro k ek hk
        rw [lookupA_removeA] at hk
        by_cases hkn : k = nid
        · rw [if_pos hkn] at hk; exact absurd hk (by simp)
        · rw [if_neg hkn] at hk
          obtain ⟨a, ha, _, _, _⟩ := lookup_after_benign hba hk
          exact h1 k a ha
      · intro x v hv
        rw [lookupA_removeA] at hv
        by_cases hx : x = e.id
        · rw [if_pos hx] at hv; exact absurd hv (by simp)
        · rw [if_neg hx] at hv
          obtain ⟨ev, hev, hid, hlt⟩ := h2 x v hv
          have hvn : v ≠ nid := by
            intro hveq
            subst hveq
            rw [h] at hev
            injection hev with hev
            subst hev
            exact hx hid.symm
          obtain ⟨ev2, hev2, hid2, _, _⟩ := lookup_fwd_benign hba hev
          refine ⟨ev2, ?_, by rw [hid2, hid], hlt⟩
          rw [lookupA_removeA, if_neg hvn]
          exact hev2
      · intro k ek hk cs hcs c hc
        rw [lookupA_removeA] at hk
        by_cases hkn : k = nid
        · rw [if_pos hkn] at hk; exact absurd hk (by simp)
        · rw [if_neg hkn] at hk
          obtain ⟨a, ha, _, _, hch⟩ := lookup_after_benign hba hk
          exact h3 k a ha cs (by rw [← hch, hcs]) c hc
      · exact orderedNodes_removeA (orderedNodes_updateA hba hOrd)
    · -- the node stays
      next hzero =>
      dsimp only
      constructor
      · have := WF_update_nodes s nid _ hba hWF
        exact this
      · exact orderedNodes_updateA hba hOrd

/-- An invariant preserved by every step of a fold is preserved by the
fold. -/
theorem foldl_preserve {σ α : Type} (P : σ → Prop) (f : σ → α → σ)
    (hstep : ∀ st a, P st → P (f st a)) :
    ∀ (l : List α) (st : σ), P st → P (l.foldl f st) := by
  intro l
  induction l with
  | nil => intro st h; exact h
  | cons a rest ih =>
    intro st h
    exact ih (f st a) (hstep st a h)

/-- Definitional unfolding of `ATree.delete_node` at positive fuel. -/
theorem delete_node_succ_eq {T : Type} [DecidableEq T] (fuel : Nat) (sub : T)
    (nid : Nat) (s : ATree T) :
    ATree.delete_node (fuel + 1) sub nid s =
      match (decrement_use_count sub nid s).2 with
      | none => (decrement_use_count sub nid s).1
      | some children =>
        children.foldl (fun acc child => ATree.delete_node fuel sub child acc)
          (decrement_use_count sub nid s).1 := rfl

/-- The delete cascade keeps the engine invariants at any fuel. -/
theorem delete_node_inv {T : Type} [DecidableEq T] :
    ∀ (fuel : Nat) (sub : T) (nid : Nat) (s : ATree T), WF s → orderedNodes s.nodes →
      WF (ATree.delete_node fuel sub nid s) ∧
        orderedNodes (ATree.delete_node fuel sub nid s).nodes := by
  intro fuel
  induction fuel with
  | zero => intro sub nid s hWF hOrd; exact ⟨hWF, hOrd⟩
  | succ n ih =>
    intro sub nid s hWF hOrd
    rw [delete_node_succ_eq]
    have hd := decrement_inv sub nid s hWF hOrd
    rcases hdp : decrement_use_count sub nid s with ⟨s1, children⟩
    rw [hdp] at hd
    cases children with
    | none => exact hd
    | some cs =>
      exact foldl_preserve (fun st => WF st ∧ orderedNodes st.nodes)
        (fun acc child => ATree.delete_node n sub child acc)
        (fun st a h => ih sub a st h.1 h.2) cs s1 hd

/-- `ATree::delete` keeps the engine invariants. -/
theorem delete_inv {T : Type} [DecidableEq T] (sub : T) (s : ATree T)
    (hWF : WF s) (hOrd : orderedNodes s.nodes) :
    WF (s.delete sub) ∧ orderedNodes (s.delete sub).nodes := by
  unfold ATree.delete
  split
  · exact ⟨hWF, hOrd⟩
  · next nid _ => exact delete_node_inv _ sub nid s hWF hOrd

/-- The empty engine is well formed with ordered children. -/
theorem new_inv (T : Type) : WF (ATree.new T) ∧ orderedNodes (ATree.new T).nodes := by
  constructor
  · refine ⟨?_, ?_, ?_⟩ <;> intro k e h <;> simp [ATree.new, lookupA] at h
  · intro nid e c0 c1 e0 e1 h1 _ _ _
    simp [ATree.new, lookupA] at h1

/-- Engine states reachable through the public mutation API: the empty
engine, top-level insertion of an optimized expression, and deletion of a
subscription id.  (`ATree::insert` itself parses and optimizes first, so
quantifying over every `OptimizedNode` covers every parser output.) -/
inductive ReachableState : ATree Nat → Prop where
  | empty : ReachableState (ATree.new Nat)
  | insert (s : ATree Nat) (sub : Nat) (t : OptimizedNode) :
      ReachableState s → ReachableState (s.insert_root sub t)
  | delete (s : ATree Nat) (sub : Nat) :
      ReachableState s → ReachableState (s.delete sub)

/-- Every reachable engine state is well formed with cost-ordered
children. -/
theorem reachable_inv {s : ATree Nat} (h : ReachableState s) :
    WF s ∧ orderedNodes s.nodes := by
  induction h with
  | empty => exact new_inv Nat
  | insert s sub t _ ih => exact insert_root_inv t sub s ih.1 ih.2
  | delete s sub _ ih => exact delete_inv sub s ih.1 ih.2

/-! # Concrete scenarios shared by the claim theorems

Predicates over a three-attribute event layout (`private`, `exchange_id`,
`b`), and the engine states that the claim theorems below evaluate. -/

/-- The boolean predicate `private`. -/
def pPriv : Predicate := { attr := 0, kind := .Variable }

/-- The predicate `exchange_id = 1`. -/
def pExch : Predicate := { attr := 1, kind := .Equality .Equal (.Integer 1) }

/-- The boolean predicate `b`. -/
def pB : Predicate := { attr := 2, kind := .Variable }

/-- An event with `private = true` and `exchange_id = 1`. -/
def evPE1 : Event := [AttributeValue.Boolean true, AttributeValue.Integer 1]

/-- State after `insert(1, private or exchange_id = 1); insert(2, private);
delete(1)`.  The second insert deduplicates onto the existing `private`
leaf; the delete frees the OR node without erasing it from that leaf's
parent list. -/
def c1state : ATree Nat :=
  (((ATree.new Nat).insert_root 1 (.Or (.Value pPriv) (.Value pExch))).insert_root 2
      (.Value pPriv)).delete 1

/-- State after `insert(1, private); insert(1, private); delete(1)`: the
same subscription id inserted twice, then deleted once. -/
def c3state : ATree Nat :=
  (((ATree.new Nat).insert_root 1 (.Value pPriv)).insert_root 1 (.Value pPriv)).delete 1

/-- State after a single `insert(1, private)`. -/
def c6single : ATree Nat :=
  (ATree.new Nat).insert_root 1 (.Value pPriv)

/-- State after `insert(1, (private or exchange_id = 1) or b)` followed by
`insert(2, private or exchange_id = 1)`: the second expression's id hits
the existing interior OR node (arena index 2). -/
def c4pre : ATree Nat :=
  ((ATree.new Nat).insert_root 1
      (.Or (.Or (.Value pPriv) (.Value pExch)) (.Value pB))).insert_root 2
    (.Or (.Value pPriv) (.Value pExch))

/-- `c4pre` after `delete(1)`. -/
def c4post : ATree Nat :=
  c4pre.delete 1

/-- State after `insert(1, private and exchange_id = 1)`: an AND of two
leaves with equal entry cost (both cost 0). -/
def c5state : ATree Nat :=
  (ATree.new Nat).insert_root 1 (.And (.Value pPriv) (.Value pExch))

/-- A leaf arena entry of the given cost, for exercising the wiring
helpers directly. -/
def wEntry (c : Nat) : Entry Nat :=
  { id := 0
    subscription_ids := []
    node := .LNode { parents := [], level := 1, predicate := pPriv }
    use_count := 1
    cost := c }

/-- A two-leaf arena whose entries both have cost 1. -/
def wATree : ATree Nat :=
  { ATree.new Nat with nodes := [(0, wEntry 1), (1, wEntry 1)], nextId := 2 }

/-! # The claim theorems -/

/-- C1: refuted as stated — the matching equivalence breaks on reachable
states.  After `insert(1, private or exchange_id = 1); insert(2, private);
delete(1)`, subscription 2 is still attached to the live `private` leaf
and its expression evaluates to `Some(true)` on the event
`{private: true, exchange_id: 1}`, yet `search` hits the leaf's dangling
parent edge (the freed OR node's slab index) and panics (modelled `none`)
instead of returning a match set containing 2. -/
theorem claim1_search_vs_semantics :
    c1state.search evPE1 = none ∧
    (lookupA c1state.nodes 0).map (fun e => e.subscription_ids) = some [2] ∧
    OptimizedNode.evaluate (.Value pPriv) evPE1 = some (some true) := by
  refine ⟨?_, ?_, ?_⟩ <;> decide

/-- C2: confirmed — for every AST `t` and event `e`, the zero-suppression
output `t.optimize` evaluates to the same three-valued result as `t`
itself under the reference semantics. -/
theorem claim2_optimize_evaluate (t : Node) (e : Event) :
    (t.optimize).evaluate e = t.evaluate e := by
  have h := zero_suppression_filter_evaluate t e false
  simpa [Node.optimize] using h

/-- C3: refuted — after `insert(1, private); insert(1, private);
delete(1)` no live subscription remains (`nodes_by_ids` is empty and no
entry holds a subscription id), yet the arena still holds one node and the
root set and predicate entry set still contain it: `retain` strips both
copies of the subscription id while `use_count` drops only from 2 to 1, so
the node is never freed. -/
theorem claim3_empty_state_leak :
    c3state.nodesByIds = [] ∧
    (c3state.nodes.map fun p => p.2.subscription_ids) = [[]] ∧
    c3state.nodes.length = 1 ∧
    c3state.roots = [0] ∧
    c3state.predicates = [0] := by
  refine ⟨?_, ?_, ?_, ?_, ?_⟩ <;> decide

/-- C4: refuted — when a top-level insert's expression id hits an existing
node, `insert_root` attaches the subscription id and bumps the use count
but never appends the node's index to the root set: after
`insert(1, (private or exchange_id = 1) or b)` then
`insert(2, private or exchange_id = 1)` the hit node (index 2) carries
subscription 2 and use count 2, yet the root set is still `[4]`.
Consequently after `delete(1)` subscription 2's node is unreachable as a
root and `search` panics on its dangling parent edge (modelled `none`). -/
theorem claim4_dedup_hit_missing_root :
    c4pre.roots = [4] ∧
    (lookupA c4pre.nodes 2).map (fun e => e.subscription_ids) = some [2] ∧
    (lookupA c4pre.nodes 2).map (fun e => e.use_count) = some 2 ∧
    c4post.search [AttributeValue.Boolean true, AttributeValue.Integer 1,
      AttributeValue.Boolean true] = none := by
  refine ⟨?_, ?_, ?_, ?_⟩ <;> decide

/-- C5: counterexample to the claimed tie-break — in
`insert(1, private and exchange_id = 1)` both leaves have entry cost 0,
and the access child is the RIGHT leaf (index 1): only it enters the
predicate entry set and gains the AND node (index 2) as parent, while the
left leaf (index 0) gains nothing. -/
theorem claim5_tie_goes_right :
    (getEntryD c5state.nodes 0).cost = (getEntryD c5state.nodes 1).cost ∧
    c5state.predicates = [1] ∧
    (lookupA c5state.nodes 0).map (fun e => e.node.parentsO) = some (some []) ∧
    (lookupA c5state.nodes 1).map (fun e => e.node.parentsO) = some (some [2]) := by
  refine ⟨?_, ?_, ?_, ?_⟩ <;> decide

/-- C5 (amended): `choose_access_child` picks the left child exactly when
its entry cost is strictly smaller, and the right child otherwise — in
particular the RIGHT child on ties.  Only the chosen child gains the
parent edge; the other child's entry is untouched. -/
theorem claim5_access_child (T : Type) (s : ATree T) (lid rid pid : Nat)
    (el er : Entry T) (hl : lookupA s.nodes lid = some el)
    (hr : lookupA s.nodes rid = some er) (hne : lid ≠ rid) :
    (el.cost < er.cost →
      lookupA (choose_access_child lid rid pid s).nodes lid =
          some { el with node := el.node.add_parent pid } ∧
        lookupA (choose_access_child lid rid pid s).nodes rid = some er) ∧
    (er.cost ≤ el.cost →
      lookupA (choose_access_child lid rid pid s).nodes rid =
          some { er with node := er.node.add_parent pid } ∧
        lookupA (choose_access_child lid rid pid s).nodes lid = some el) := by
  have hgl : getEntryD s.nodes lid = el := by rw [getEntryD, hl]; rfl
  have hgr : getEntryD s.nodes rid = er := by rw [getEntryD, hr]; rfl
  constructor
  · intro hlt
    have hcond : (getEntryD s.nodes lid).cost < (getEntryD s.nodes rid).cost := by
      rw [hgl, hgr]; exact hlt
    simp only [choose_access_child, add_parent]
    rw [if_pos hcond]
    constructor
    · rw [lookupA_updateA, if_pos rfl, hl]; rfl
    · rw [lookupA_updateA, if_neg (fun hx => hne hx.symm), hr]
  · intro hle
    have hcond : ¬ (getEntryD s.nodes lid).cost < (getEntryD s.nodes rid).cost := by
      rw [hgl, hgr]; exact not_lt.mpr hle
    simp only [choose_access_child, add_parent]
    rw [if_neg hcond]
    constructor
    · rw [lookupA_updateA, if_pos rfl, hr]; rfl
    · rw [lookupA_updateA, if_neg hne, hl]

/-- Witness for C5 (amended): on a two-leaf arena with equal costs the
right child (index 1) gains the parent edge and the left child (index 0)
is untouched. -/
theorem claim5_access_child_witness :
    lookupA (choose_access_child 0 1 7 wATree).nodes 1 =
        some { wEntry 1 with node := (wEntry 1).node.add_parent 7 } ∧
      lookupA (choose_access_child 0 1 7 wATree).nodes 0 = some (wEntry 1) :=
  (claim5_access_child Nat wATree 0 1 7 (wEntry 1) (wEntry 1) rfl rfl
    (by decide)).2 (le_refl _)

/-- C6: refuted — `insert(1, private); insert(1, private); delete(1)` is
observably different from a single `insert(1, private)`: on the event
`{private: true}` the former returns no matches (both copies of the
subscription id were stripped by the delete) while the latter matches
subscription 1. -/
theorem claim6_double_insert_delete :
    c3state.search [AttributeValue.Boolean true] = some [] ∧
    c6single.search [AttributeValue.Boolean true] = some [1] := by
  refine ⟨?_, ?_⟩ <;> decide

/-- C7: confirmed — structural negation complements evaluation: for every
predicate `p` and event `e`, `(!p).evaluate e` is `p.evaluate e` with the
boolean flipped (`Some(b)` to `Some(!b)`, `None` to `None`, panics to
panics). -/
theorem claim7_structural_negation (p : Predicate) (e : Event) :
    (p.not).evaluate e = (p.evaluate e).map (Option.map Bool.not) :=
  pred_not_evaluate p e

/-- C8: refuted — the null-check family is not total on `Undefined`
slots: `IsEmpty` and `IsNotEmpty` fall into `NullOperator::evaluate`'s
`unreachable!` arm (itself labelled "This is a bug") and panic (modelled
`none`) instead of returning a concrete boolean, while `IsNull` and
`IsNotNull` do return `Some(true)` / `Some(false)` as claimed. -/
theorem claim8_null_check_totality :
    Predicate.evaluate { attr := 0, kind := .Null .IsEmpty } [.Undefined] = none ∧
    Predicate.evaluate { attr := 0, kind := .Null .IsNotEmpty } [.Undefined] = none ∧
    Predicate.evaluate { attr := 0, kind := .Null .IsNull } [.Undefined] =
      some (some true) ∧
    Predicate.evaluate { attr := 0, kind := .Null .IsNotNull } [.Undefined] =
      some (some false) := by
  refine ⟨?_, ?_, ?_, ?_⟩ <;> decide

/-- C9: confirmed — in every engine state reachable through the public
mutation API every composite node stores its children cheaper-first
(`cost(c0) ≤ cost(c1)`), and the children vector built for a fresh
composite keeps the left operand first whenever its cost is less than or
equal to the right operand's (so the left child stays left on ties). -/
theorem claim9_children_cost_ordered :
    (∀ s : ATree Nat, ReachableState s → orderedNodes s.nodes) ∧
    (∀ (T : Type) (nodes : List (Nat × Entry T)) (lid rid : Nat),
      (getEntryD nodes lid).cost ≤ (getEntryD nodes rid).cost →
      composite_children nodes lid rid = [lid, rid]) := by
  constructor
  · intro s h
    exact (reachable_inv h).2
  · intro T nodes lid rid hle
    unfold composite_children
    rw [if_neg]
    exact not_lt.mpr hle

/-- Witness for C9: the state after one AND insertion is cost-ordered,
and on a concrete equal-cost arena the fresh children vector keeps the
left child first. -/
theorem claim9_children_cost_ordered_witness :
    orderedNodes c5state.nodes ∧
    composite_children wATree.nodes 0 1 = [0, 1] := by
  constructor
  · exact claim9_children_cost_ordered.1 c5state
      (ReachableState.insert (ATree.new Nat) 1 (.And (.Value pPriv) (.Value pExch))
        ReachableState.empty)
  · exact claim9_children_cost_ordered.2 Nat wATree.nodes 0 1 (by decide)

/-! # The event builder claim (C10) -/

/-- A successful `add_value` call keeps the tables and touches only the
slot its name resolves to. -/
theorem add_value_preserves (b b' : EventBuilder) (name : String)
    (actual : AttributeKind) (f : Unit → AttributeValue)
    (h : b.add_value name actual f = .ok b') :
    b'.attributes = b.attributes ∧ b'.strings = b.strings ∧
    ∀ i, by_name b.attributes name ≠ some i → b'.by_ids[i]? = b.by_ids[i]? := by
  simp only [EventBuilder.add_value] at h
  split at h
  · exact absurd h (by simp)
  · next index hidx =>
    split at h
    · exact absurd h (by simp)
    · injection h with h
      subst h
      refine ⟨rfl, rfl, ?_⟩
      intro i hi
      have hne : index ≠ i := fun he => hi (he ▸ hidx)
      exact List.getElem?_set_ne hne

/-- A successful builder operation keeps the tables and touches only the
slot its attribute name resolves to. -/
theorem applyOp_preserves (b b' : EventBuilder) (op : BuilderOp)
    (h : b.applyOp op = .ok b') :
    b'.attributes = b.attributes ∧ b'.strings = b.strings ∧
    ∀ i, by_name b.attributes op.name ≠ some i → b'.by_ids[i]? = b.by_ids[i]? := by
  cases op with
  | withBoolean name value =>
    simp only [EventBuilder.applyOp] at h
    exact add_value_preserves b b' name .Boolean _ h
  | withInteger name value =>
    simp only [EventBuilder.applyOp] at h
    exact add_value_preserves b b' name .Integer _ h
  | withFloat name number scale =>
    simp only [EventBuilder.applyOp] at h
    exact add_value_preserves b b' name .Float _ h
  | withString name value =>
    simp only [EventBuilder.applyOp] at h
    exact add_value_preserves b b' name .String _ h
  | withIntegerList name value =>
    simp only [EventBuilder.applyOp] at h
    exact add_value_preserves b b' name .IntegerList _ h
  | withStringList name values =>
    simp only [EventBuilder.applyOp] at h
    exact add_value_preserves b b' name .StringList _ h
  | withUndefined name =>
    simp only [EventBuilder.applyOp] at h
    split at h
    · exact absurd h (by simp)
    · next index hidx =>
      injection h with h
      subst h
      refine ⟨rfl, rfl, ?_⟩
      intro i hi
      have hne : index ≠ i := fun he => hi (he ▸ hidx)
      exact List.getElem?_set_ne hne

/-- A successful operation sequence keeps the tables and leaves every slot
no operation resolves to unchanged. -/
theorem runOps_preserves :
    ∀ (ops : List BuilderOp) (b b' : EventBuilder),
      EventBuilder.runOps b ops = .ok b' →
      b'.attributes = b.attributes ∧ b'.strings = b.strings ∧
      ∀ i, (∀ op ∈ ops, by_name b.attributes op.name ≠ some i) →
        b'.by_ids[i]? = b.by_ids[i]? := by
  intro ops
  induction ops with
  | nil =>
    intro b b' h
    injection h with h
    subst h
    exact ⟨rfl, rfl, fun i _ => rfl⟩
  | cons op rest ih =>
    intro b b' h
    unfold EventBuilder.runOps at h
    split at h
    · next b1 happ =>
      obtain ⟨ha1, hs1, hv1⟩ := applyOp_preserves b b1 op happ
      obtain ⟨ha2, hs2, hv2⟩ := ih b1 b' h
      refine ⟨ha2.trans ha1, hs2.trans hs1, ?_⟩
      intro i hi
      have hrest : ∀ o ∈ rest, by_name b1.attributes o.name ≠ some i := by
        intro o ho
        rw [ha1]
        exact hi o (List.mem_cons_of_mem op ho)
      rw [hv2 i hrest, hv1 i (hi op (List.mem_cons_self op rest))]
    · exact absurd h (by simp)

/-- C10: confirmed — `EventBuilder::build` never fails: starting from
`make_event`'s builder, after any sequence of successful attribute
assignments `build` returns `Ok` (the `Result` error branch is dead code),
and every slot no assignment resolved to still holds `Undefined`. -/
theorem claim10_build_total (attrs : AttributeTableM) (strings : StringTableM)
    (ops : List BuilderOp) (b : EventBuilder)
    (h : EventBuilder.runOps (EventBuilder.new attrs strings) ops = .ok b) :
    b.build = .ok b.by_ids ∧
    ∀ i, i < attrs.length → (∀ op ∈ ops, by_name attrs op.name ≠ some i) →
      b.by_ids[i]? = some AttributeValue.Undefined := by
  obtain ⟨_, _, hv⟩ := runOps_preserves ops (EventBuilder.new attrs strings) b h
  refine ⟨rfl, ?_⟩
  intro i hlt hi
  rw [hv i hi]
  simp [EventBuilder.new, List.getElem?_replicate, hlt]

/-- A two-attribute declaration table for the C10 witness. -/
def attrsW : AttributeTableM := [("a", .Boolean), ("b", .Integer)]

/-- One successful assignment (to the first attribute) for the C10
witness. -/
def opsW : List BuilderOp := [.withBoolean "a" true]

/-- The builder state `opsW` produces from `attrsW`'s fresh builder. -/
def bW : EventBuilder :=
  { attributes := attrsW, strings := [], by_ids := [.Boolean true, .Undefined] }

/-- Witness for C10: the concrete run succeeds, `build` returns `Ok`, and
the unassigned second slot is still `Undefined`. -/
theorem claim10_build_total_witness :
    EventBuilder.runOps (EventBuilder.new attrsW []) opsW = .ok bW ∧
    bW.build = .ok bW.by_ids ∧
    bW.by_ids[1]? = some AttributeValue.Undefined := by
  have h : EventBuilder.runOps (EventBuilder.new attrsW []) opsW = .ok bW := rfl
  have hc := claim10_build_total attrsW [] opsW bW h
  exact ⟨h, hc.1, hc.2 1 (by decide) (by decide)⟩
